import Mathlib

set_option linter.all false

/-!
Verification development for the devsync block-level file synchronizer.

The program compares a source stream and a destination file in fixed-size
blocks, buffering reads, and (unless running dry) overwrites each differing
block of the destination in place with the source bytes for that block.

Embedding notes:
* byte streams and files are lists of natural numbers (byte values);
* the read side of a stream is a position (cursor) into the list;
* `fill_buf` models the retry-until-full-or-eof read loop of the code,
  parameterised by a schedule of read granularities so that partial reads
  by the underlying reader are covered;
* the engine loops are translated with an explicit fuel argument; `none`
  models a run that does not terminate within the given fuel, and the
  top-level entry point supplies fuel that provably covers every
  terminating execution;
* writes are parameterised by a schedule of write results so that short
  writes (which the code treats as fatal) can be exercised; the empty
  schedule means every write transfers all requested bytes;
* `EngineState.blocks` is a ghost log of compared blocks.  Modelled from
  the spec: the code keeps no BlockDescriptor list (only counters), but
  the specification describes Diff mode as returning descriptors
  (index, byte_offset = index * block_size, size); the log records, for
  every compared block, its index, its size and the two compared slices,
  and does not influence any other field.
-/

namespace Devsync

/-- Run configuration, as in the code: block size and buffer size in bytes,
and the dry-run flag. -/
structure Config where
  block_size : Nat
  buf_size : Nat
  dry_run : Bool
deriving DecidableEq

/-- Ghost descriptor of one compared block.  Modelled from the spec: the
code only counts blocks, while the spec speaks of BlockDescriptors with a
zero-based index, a nominal byte offset `index * block_size` and a size;
we additionally record the two compared slices. -/
structure BlockDescriptor where
  index : Nat
  size : Nat
  srcBytes : List Nat
  destBytes : List Nat
deriving DecidableEq

/-- The four run counters of `sync_files`, bundled for the pure
re-statement of the comparison loop (`scanBufs`, `scanStreams`). -/
structure Counters where
  blocks : Nat
  diffBlocks : Nat
  bytes : Nat
  diffBytes : Nat
deriving DecidableEq

/-- Mutable state of a run of `sync_files`: the four counters of the code
(`diff_blocks`, `diff_bytes`, `total_bytes`, `block_cnt`), the destination
file content and its read cursor, the remaining write-result schedule, and
the ghost block log. -/
structure EngineState where
  diff_blocks : Nat
  diff_bytes : Nat
  total_bytes : Nat
  block_cnt : Nat
  dest : List Nat
  dest_pos : Nat
  wsched : List Nat
  blocks : List BlockDescriptor
deriving DecidableEq

/-- Write `b` into file `d` at absolute offset `o`: positions before `o`
keep their bytes, a seek past end of file followed by a write fills the
gap with zero bytes, and the file grows exactly when `o + b.length`
exceeds its length. -/
def writeAt (d : List Nat) (o : Nat) (b : List Nat) : List Nat :=
  d.take o ++ List.replicate (o - d.length) 0 ++ b ++ d.drop (o + b.length)

/-- The save-seek / seek-to-target / write / seek-restore sequence of the
code, on a file plus read cursor.  `wc` is the number of bytes the write
actually transferred; the cursor is restored only when the write was not
short, because a short write aborts the run before the restoring seek. -/
def patchBlock (dest : List Nat) (pos offset : Nat) (data : List Nat) (wc : Nat) :
    List Nat × Nat :=
  let old_pos := pos
  let d := writeAt dest offset (data.take wc)
  if wc = data.length then (d, old_pos) else (d, offset + wc)

/-- One `read` call of the underlying reader: at most the requested count,
at most the schedule granularity, zero exactly at end of stream. -/
def readStep (avail req g : Nat) : Nat :=
  min (max g 1) (min req avail)

/-- Loop body of `fill_buf`: keep issuing reads into the remaining part of
the buffer until it is full or a read returns 0 (end of stream).  `acc` is
`read_size` of the code; the fuel strictly exceeds the possible number of
iterations (each successful read adds at least one byte, so at most `cap`
iterations happen). -/
def fillBufGo (data : List Nat) (pos cap : Nat) : Nat → List Nat → Nat → Nat
  | acc, _, 0 => acc
  | acc, sched, fuel + 1 =>
    if acc < cap then
      let g := match sched with
        | [] => cap - acc
        | c :: _ => c
      let rc := readStep (data.length - (pos + acc)) (cap - acc) g
      if rc = 0 then acc
      else fillBufGo data pos cap (acc + rc) sched.tail fuel
    else acc

/-- The `fill_buf` of the code: number of bytes placed into a buffer of
capacity `cap` by repeatedly reading from the stream `data` at position
`pos`, with reader granularities drawn from `sched` (an empty schedule
means each read returns as much as fits). -/
def fill_buf (data : List Nat) (pos cap : Nat) (sched : List Nat) : Nat :=
  fillBufGo data pos cap 0 sched (cap + 1)

/-- The bytes a `fill_buf` call places into the buffer: the next
`min cap (data.length - pos)` bytes of the stream. -/
def fill_buf_bytes (data : List Nat) (pos cap : Nat) : List Nat :=
  (data.drop pos).take cap

/-- Inner comparison loop of `sync_files`: walk the two filled buffers
`sb` and `db` in steps of at most `block_size` bytes, compare the two
slices, count, and in sync mode patch the destination block when the
slices differ.  `offs` is `buf_offs` of the code.  `none` means the loop
did not finish within `fuel` steps (with `block_size = 0` the code loops
forever). -/
def innerLoop (cfg : Config) (sb db : List Nat) : Nat → EngineState → Nat →
    Option (Except EngineState EngineState)
  | _, _, 0 => none
  | offs, st, fuel + 1 =>
    if offs < sb.length ∧ offs < db.length then
      let src_cmp := min cfg.block_size (sb.length - offs)
      let dest_cmp := min cfg.block_size (db.length - offs)
      let cmp := min src_cmp dest_cmp
      let ss := (sb.drop offs).take cmp
      let ds := (db.drop offs).take cmp
      let st0 := { st with
        blocks := st.blocks ++ [BlockDescriptor.mk st.block_cnt cmp ss ds] }
      if ss = ds then
        innerLoop cfg sb db (offs + cmp)
          { st0 with block_cnt := st0.block_cnt + 1,
                     total_bytes := st0.total_bytes + cmp } fuel
      else
        let st1 := { st0 with diff_blocks := st0.diff_blocks + 1,
                              diff_bytes := st0.diff_bytes + cmp }
        if cfg.dry_run then
          innerLoop cfg sb db (offs + cmp)
            { st1 with block_cnt := st1.block_cnt + 1,
                       total_bytes := st1.total_bytes + cmp } fuel
        else
          let wc := match st1.wsched with
            | [] => cmp
            | w :: _ => min w cmp
          let pr := patchBlock st1.dest st1.dest_pos
            (st1.block_cnt * cfg.block_size) ss wc
          let st2 := { st1 with dest := pr.1, dest_pos := pr.2,
                                wsched := st1.wsched.tail }
          if wc = cmp then
            innerLoop cfg sb db (offs + cmp)
              { st2 with block_cnt := st2.block_cnt + 1,
                         total_bytes := st2.total_bytes + cmp } fuel
          else some (Except.error st2)
    else some (Except.ok st)

/-- Outer loop of `sync_files`: refill both buffers, stop as soon as
either refill yields 0 bytes, otherwise run the inner comparison loop and
continue.  Both refills happen (and advance the cursors) before the
end-of-file check, as in the code.  The inner fuel `sb.length + 1`
strictly exceeds the number of inner steps of any terminating execution
(each step consumes at least one buffered byte when `block_size ≥ 1`). -/
def syncLoop (cfg : Config) (src : List Nat) : Nat → EngineState → Nat →
    Option (Except EngineState EngineState)
  | _, _, 0 => none
  | src_pos, st, fuel + 1 =>
    let sb := fill_buf_bytes src src_pos cfg.buf_size
    let db := fill_buf_bytes st.dest st.dest_pos cfg.buf_size
    let st1 := { st with dest_pos := st.dest_pos + db.length }
    if sb.length = 0 ∨ db.length = 0 then some (Except.ok st1)
    else
      match innerLoop cfg sb db 0 st1 (sb.length + 1) with
      | none => none
      | some (Except.error e) => some (Except.error e)
      | some (Except.ok s) => syncLoop cfg src (src_pos + sb.length) s fuel

/-- Entry point `sync_files`: run the engine on source stream `src` and
destination file `dest` from position 0 with zeroed counters.  `ws` is the
write-result schedule (`[]` for a destination that never short-writes).
The outer fuel `src.length + 1` strictly exceeds the possible number of
outer iterations, since every continued iteration consumes at least one
source byte. -/
def sync_files (cfg : Config) (src dest : List Nat) (ws : List Nat) :
    Option (Except EngineState EngineState) :=
  syncLoop cfg src 0 ⟨0, 0, 0, 0, dest, 0, ws, []⟩ (src.length + 1)

/-- State carried by a run outcome, whether it finished normally or was
aborted by a short write. -/
def resState : Except EngineState EngineState → EngineState
  | Except.ok s => s
  | Except.error s => s

/-- Whether a run finished normally. -/
def runIsOk (cfg : Config) (src dest ws : List Nat) : Bool :=
  match sync_files cfg src dest ws with
  | some (Except.ok _) => true
  | _ => false

/-- Final state of a run (defaulting to an empty state if the engine ran
out of fuel, which never happens for `block_size ≥ 1`). -/
def runFinal (cfg : Config) (src dest ws : List Nat) : EngineState :=
  match sync_files cfg src dest ws with
  | some r => resState r
  | none => ⟨0, 0, 0, 0, [], 0, [], []⟩

/-- Nominal absolute byte offset of a descriptor, as the spec defines it. -/
def byteOffset (bs : Nat) (d : BlockDescriptor) : Nat := d.index * bs

/-- Position `i` lies inside the nominal range of some logged block. -/
def covers (bs : Nat) (blocks : List BlockDescriptor) (i : Nat) : Prop :=
  ∃ d ∈ blocks, d.index * bs ≤ i ∧ i < d.index * bs + d.size

/-- Pure restatement of one pass of the inner comparison loop over a pair
of filled buffers: the counter deltas it produces, independent of mode and
of the destination file. -/
def scanBufs (bs : Nat) (sb db : List Nat) : Nat → Nat → Counters
  | _, 0 => ⟨0, 0, 0, 0⟩
  | offs, fuel + 1 =>
    if offs < sb.length ∧ offs < db.length then
      let cmp := min (min bs (sb.length - offs)) (min bs (db.length - offs))
      let rest := scanBufs bs sb db (offs + cmp) fuel
      if (sb.drop offs).take cmp = (db.drop offs).take cmp then
        ⟨rest.blocks + 1, rest.diffBlocks, rest.bytes + cmp, rest.diffBytes⟩
      else
        ⟨rest.blocks + 1, rest.diffBlocks + 1, rest.bytes + cmp, rest.diffBytes + cmp⟩
    else ⟨0, 0, 0, 0⟩

/-- Pure restatement of the whole run on the original pair of streams:
counter deltas accumulated buffer pair by buffer pair. -/
def scanStreams (bs bufsz : Nat) (src dest : List Nat) : Nat → Nat → Counters
  | _, 0 => ⟨0, 0, 0, 0⟩
  | p, fuel + 1 =>
    let sb := fill_buf_bytes src p bufsz
    let db := fill_buf_bytes dest p bufsz
    if sb.length = 0 ∨ db.length = 0 then ⟨0, 0, 0, 0⟩
    else
      let here := scanBufs bs sb db 0 (sb.length + 1)
      let rest := scanStreams bs bufsz src dest (p + bufsz) fuel
      ⟨here.blocks + rest.blocks, here.diffBlocks + rest.diffBlocks,
        here.bytes + rest.bytes, here.diffBytes + rest.diffBytes⟩

/-! Basic facts about refilled buffers and in-place writes. -/

theorem length_fill_buf_bytes (data : List Nat) (pos cap : Nat) :
    (fill_buf_bytes data pos cap).length = min cap (data.length - pos) := by
  simp [fill_buf_bytes]

theorem getElem?_fill_buf_bytes (data : List Nat) (pos cap j : Nat)
    (h : j < cap) : (fill_buf_bytes data pos cap)[j]? = data[pos + j]? := by
  simp [fill_buf_bytes, List.getElem?_take, h, List.getElem?_drop]

theorem slice_fill_buf_bytes (data : List Nat) (pos cap offs cmp : Nat)
    (h : offs + cmp ≤ cap) :
    ((fill_buf_bytes data pos cap).drop offs).take cmp =
      (data.drop (pos + offs)).take cmp := by
  simp only [fill_buf_bytes, List.drop_take, List.take_take, List.drop_drop]
  rw [min_eq_left (by omega : cmp ≤ cap - offs)]

theorem writeAt_length (d : List Nat) (o : Nat) (b : List Nat) :
    (writeAt d o b).length = max d.length (o + b.length) := by
  simp [writeAt]
  omega

theorem getElem?_writeAt_lt (d : List Nat) (o : Nat) (b : List Nat) (i : Nat)
    (h : i < o) (h2 : i < d.length) : (writeAt d o b)[i]? = d[i]? := by
  rw [writeAt]
  rw [List.getElem?_append, if_pos (by
    simp only [List.length_append, List.length_take, List.length_replicate]
    omega)]
  rw [List.getElem?_append, if_pos (by
    simp only [List.length_append, List.length_take, List.length_replicate]
    omega)]
  rw [List.getElem?_append, if_pos (by
    simp only [List.length_take]
    omega)]
  rw [List.getElem?_take, if_pos h]

theorem getElem?_writeAt_in (d : List Nat) (o : Nat) (b : List Nat) (j : Nat)
    (h : j < b.length) : (writeAt d o b)[o + j]? = b[j]? := by
  rw [writeAt, show d.take o ++ List.replicate (o - d.length) 0 ++ b ++ d.drop (o + b.length)
      = (d.take o ++ List.replicate (o - d.length) 0) ++ (b ++ d.drop (o + b.length)) from by
    simp [List.append_assoc]]
  have hA : (d.take o ++ List.replicate (o - d.length) 0).length = o := by
    simp only [List.length_append, List.length_take, List.length_replicate]
    omega
  rw [List.getElem?_append, hA, if_neg (by omega), Nat.add_sub_cancel_left]
  rw [List.getElem?_append, if_pos h]

theorem getElem?_writeAt_ge (d : List Nat) (o : Nat) (b : List Nat) (i : Nat)
    (h : o + b.length ≤ i) : (writeAt d o b)[i]? = d[i]? := by
  rw [writeAt]
  have hP : (d.take o ++ List.replicate (o - d.length) 0 ++ b).length = o + b.length := by
    simp only [List.length_append, List.length_take, List.length_replicate]
    omega
  rw [List.getElem?_append, hP, if_neg (by omega), List.getElem?_drop]
  congr 1
  omega

/-! The buffer filler: the retry loop always fills the buffer completely
unless the stream runs out first, for every read-granularity schedule. -/

theorem fillBufGo_eq (data : List Nat) (pos cap : Nat) :
    ∀ fuel acc sched, acc ≤ cap → cap - acc < fuel →
      fillBufGo data pos cap acc sched fuel =
        min cap (acc + (data.length - (pos + acc))) := by
  intro fuel
  induction fuel with
  | zero => intro acc sched h1 h2; omega
  | succ n ih =>
    intro acc sched h1 h2
    by_cases hacc : acc < cap
    · simp only [fillBufGo, if_pos hacc]
      set g := (match sched with | [] => cap - acc | c :: _ => c) with hg
      by_cases hrc : readStep (data.length - (pos + acc)) (cap - acc) g = 0
      · rw [if_pos hrc]
        have : data.length - (pos + acc) = 0 := by
          simp only [readStep] at hrc
          omega
        omega
      · rw [if_neg hrc]
        have hrc1 : 1 ≤ readStep (data.length - (pos + acc)) (cap - acc) g := by omega
        have hrcle : readStep (data.length - (pos + acc)) (cap - acc) g ≤ cap - acc := by
          simp only [readStep]; omega
        have hrcav : readStep (data.length - (pos + acc)) (cap - acc) g ≤
            data.length - (pos + acc) := by
          simp only [readStep]; omega
        rw [ih _ sched.tail (by omega) (by omega)]
        omega
    · simp only [fillBufGo, if_neg hacc]
      omega

theorem fill_buf_eq (data : List Nat) (pos cap : Nat) (sched : List Nat) :
    fill_buf data pos cap sched = min cap (data.length - pos) := by
  rw [fill_buf, fillBufGo_eq data pos cap (cap + 1) 0 sched (Nat.zero_le cap) (by omega)]
  simp

/-- C3.  The buffer filler contract: for every byte source (stream plus
position), every buffer capacity and every schedule of read granularities
(covering arbitrary partial reads, which the loop retries), `fill_buf`
returns the number of bytes placed in the buffer; this number never
exceeds the capacity, equals the capacity unless the stream is exhausted
first, and otherwise equals the number of bytes remaining before
end-of-stream (possibly 0).  It also equals the length of the buffer
prefix `fill_buf_bytes` that the engine goes on to compare. -/
theorem fill_buf_contract (data : List Nat) (pos cap : Nat) (sched : List Nat) :
    fill_buf data pos cap sched = min cap (data.length - pos) ∧
    fill_buf data pos cap sched ≤ cap ∧
    fill_buf data pos cap sched = (fill_buf_bytes data pos cap).length := by
  refine ⟨fill_buf_eq data pos cap sched, ?_, ?_⟩
  · rw [fill_buf_eq]; omega
  · rw [fill_buf_eq, length_fill_buf_bytes]

/-! Slices of buffers versus pointwise bytes. -/

theorem take_drop_eq_of_agree (sb db : List Nat) (offs cmp : Nat)
    (h : ∀ j, offs ≤ j → j < offs + cmp → sb[j]? = db[j]?) :
    (sb.drop offs).take cmp = (db.drop offs).take cmp := by
  apply List.ext_getElem?
  intro n
  rw [List.getElem?_take, List.getElem?_take]
  by_cases hn : n < cmp
  · rw [if_pos hn, if_pos hn, List.getElem?_drop, List.getElem?_drop]
    exact h (offs + n) (by omega) (by omega)
  · rw [if_neg hn, if_neg hn]

theorem agree_of_take_drop_eq (sb db : List Nat) (offs cmp j : Nat)
    (h : (sb.drop offs).take cmp = (db.drop offs).take cmp)
    (hj : j < cmp) : sb[offs + j]? = db[offs + j]? := by
  have h2 := congrArg (fun l => l[j]?) h
  simpa [List.getElem?_take, hj, List.getElem?_drop] using h2

/-! Inner comparison loop: termination, runs over equal buffers, and
counter accounting. -/

/-- With a positive block size and no injected write failures, the inner
loop finishes normally: every step consumes at least one buffered byte. -/
theorem innerLoop_ok (cfg : Config) (sb db : List Nat) (hbs : 1 ≤ cfg.block_size) :
    ∀ fuel offs st, min sb.length db.length - offs < fuel → st.wsched = [] →
      ∃ s, innerLoop cfg sb db offs st fuel = some (Except.ok s) ∧ s.wsched = [] := by
  intro fuel
  induction fuel with
  | zero => intro offs st h1 h2; omega
  | succ n ih =>
    intro offs st h1 h2
    simp only [innerLoop]
    by_cases hguard : offs < sb.length ∧ offs < db.length
    · rw [if_pos hguard]
      obtain ⟨hg1, hg2⟩ := hguard
      set cmp := min (min cfg.block_size (sb.length - offs))
        (min cfg.block_size (db.length - offs)) with hcmpdef
      have hcmp : 1 ≤ cmp := by omega
      by_cases heq : (sb.drop offs).take cmp = (db.drop offs).take cmp
      · rw [if_pos heq]
        exact ih _ _ (by omega) h2
      · rw [if_neg heq]
        by_cases hdry : cfg.dry_run = true
        · rw [if_pos hdry]
          exact ih _ _ (by omega) h2
        · rw [if_neg hdry]
          have hwc : (match st.wsched with | [] => cmp | w :: _ => min w cmp) = cmp := by
            rw [h2]
          rw [hwc, if_pos rfl]
          exact ih _ _ (by omega) (by simp [h2])
    · rw [if_neg hguard]
      exact ⟨st, rfl, h2⟩

/-- Over a pair of buffers that agree byte for byte, the inner loop only
counts equal blocks: the destination, its cursor, the write schedule and
both difference counters come out unchanged. -/
theorem innerLoop_no_diff (cfg : Config) (sb db : List Nat) (hbs : 1 ≤ cfg.block_size)
    (heq : ∀ j, j < sb.length → j < db.length → sb[j]? = db[j]?) :
    ∀ fuel offs st, min sb.length db.length - offs < fuel →
      ∃ s, innerLoop cfg sb db offs st fuel = some (Except.ok s) ∧
        s.dest = st.dest ∧ s.dest_pos = st.dest_pos ∧ s.wsched = st.wsched ∧
        s.diff_blocks = st.diff_blocks ∧ s.diff_bytes = st.diff_bytes := by
  intro fuel
  induction fuel with
  | zero => intro offs st h1; omega
  | succ n ih =>
    intro offs st h1
    simp only [innerLoop]
    by_cases hguard : offs < sb.length ∧ offs < db.length
    · rw [if_pos hguard]
      obtain ⟨hg1, hg2⟩ := hguard
      set cmp := min (min cfg.block_size (sb.length - offs))
        (min cfg.block_size (db.length - offs)) with hcmpdef
      have hcmp : 1 ≤ cmp := by omega
      have hslice : (sb.drop offs).take cmp = (db.drop offs).take cmp := by
        apply take_drop_eq_of_agree
        intro j hj1 hj2
        exact heq j (by omega) (by omega)
      rw [if_pos hslice]
      obtain ⟨s, hs, hrest⟩ := ih (offs + cmp) _ (by omega)
      exact ⟨s, hs, hrest⟩
    · rw [if_neg hguard]
      exact ⟨st, rfl, rfl, rfl, rfl, rfl, rfl⟩

/-- Counter accounting of the inner loop, for any outcome: the four
counters never decrease; on a normal finish the difference counters grow
by no more than the totals; and every newly logged block has a positive
size of at most `block_size`. -/
theorem innerLoop_counters (cfg : Config) (sb db : List Nat) (hbs : 1 ≤ cfg.block_size) :
    ∀ fuel offs st r, innerLoop cfg sb db offs st fuel = some r →
      st.diff_blocks ≤ (resState r).diff_blocks ∧
      st.diff_bytes ≤ (resState r).diff_bytes ∧
      st.total_bytes ≤ (resState r).total_bytes ∧
      st.block_cnt ≤ (resState r).block_cnt ∧
      (∀ s, r = Except.ok s →
        s.diff_bytes + st.total_bytes ≤ st.diff_bytes + s.total_bytes ∧
        s.diff_blocks + st.block_cnt ≤ st.diff_blocks + s.block_cnt) ∧
      (∀ d, d ∈ (resState r).blocks → d ∈ st.blocks ∨
        (0 < d.size ∧ d.size ≤ cfg.block_size)) := by
  intro fuel
  induction fuel with
  | zero => intro offs st r hr; exact absurd hr (by simp [innerLoop])
  | succ n ih =>
    intro offs st r hr
    rw [innerLoop] at hr
    by_cases hguard : offs < sb.length ∧ offs < db.length
    · rw [if_pos hguard] at hr
      obtain ⟨hg1, hg2⟩ := hguard
      set cmp := min (min cfg.block_size (sb.length - offs))
        (min cfg.block_size (db.length - offs)) with hcmpdef
      have hcmp : 1 ≤ cmp := by omega
      have hcmpbs : cmp ≤ cfg.block_size := by omega
      by_cases heq : (sb.drop offs).take cmp = (db.drop offs).take cmp
      · rw [if_pos heq] at hr
        obtain ⟨m1, m2, m3, m4, m5, m6⟩ := ih _ _ _ hr
        dsimp only at m1 m2 m3 m4 m6
        refine ⟨by omega, by omega, by omega, by omega, ?_, ?_⟩
        · intro s hs
          obtain ⟨p1, p2⟩ := m5 s hs
          dsimp only at p1 p2
          constructor <;> omega
        · intro d hd
          rcases m6 d hd with hmem | hsz
          · simp only [List.mem_append, List.mem_singleton] at hmem
            rcases hmem with hmem | hmem
            · exact Or.inl hmem
            · exact Or.inr (by subst hmem; exact ⟨hcmp, hcmpbs⟩)
          · exact Or.inr hsz
      · rw [if_neg heq] at hr
        by_cases hdry : cfg.dry_run = true
        · rw [if_pos hdry] at hr
          obtain ⟨m1, m2, m3, m4, m5, m6⟩ := ih _ _ _ hr
          dsimp only at m1 m2 m3 m4 m6
          refine ⟨by omega, by omega, by omega, by omega, ?_, ?_⟩
          · intro s hs
            obtain ⟨p1, p2⟩ := m5 s hs
            dsimp only at p1 p2
            constructor <;> omega
          · intro d hd
            rcases m6 d hd with hmem | hsz
            · simp only [List.mem_append, List.mem_singleton] at hmem
              rcases hmem with hmem | hmem
              · exact Or.inl hmem
              · exact Or.inr (by subst hmem; exact ⟨hcmp, hcmpbs⟩)
            · exact Or.inr hsz
        · rw [if_neg hdry] at hr
          by_cases hwc : (match st.wsched with | [] => cmp | w :: _ => min w cmp) = cmp
          · rw [if_pos hwc] at hr
            obtain ⟨m1, m2, m3, m4, m5, m6⟩ := ih _ _ _ hr
            dsimp only at m1 m2 m3 m4 m6
            refine ⟨by omega, by omega, by omega, by omega, ?_, ?_⟩
            · intro s hs
              obtain ⟨p1, p2⟩ := m5 s hs
              dsimp only at p1 p2
              constructor <;> omega
            · intro d hd
              rcases m6 d hd with hmem | hsz
              · simp only [List.mem_append, List.mem_singleton] at hmem
                rcases hmem with hmem | hmem
                · exact Or.inl hmem
                · exact Or.inr (by subst hmem; exact ⟨hcmp, hcmpbs⟩)
              · exact Or.inr hsz
          · rw [if_neg hwc] at hr
            obtain rfl := Option.some.inj hr
            simp only [resState]
            refine ⟨by omega, by omega, by omega, by omega, ?_, ?_⟩
            · intro s hs
              exact absurd hs (by simp)
            · intro d hd
              simp only [List.mem_append, List.mem_singleton] at hd
              rcases hd with hmem | hmem
              · exact Or.inl hmem
              · exact Or.inr (by subst hmem; exact ⟨hcmp, hcmpbs⟩)
    · rw [if_neg hguard] at hr
      obtain rfl := Option.some.inj hr
      dsimp only [resState]
      refine ⟨le_refl _, le_refl _, le_refl _, le_refl _, ?_, fun d hd => Or.inl hd⟩
      intro s hs
      obtain rfl := Except.ok.inj hs
      exact ⟨le_refl _, le_refl _⟩

theorem getElem?_take_drop (l : List Nat) (offs cmp k : Nat) (hk : k < cmp) :
    ((l.drop offs).take cmp)[k]? = l[offs + k]? := by
  rw [List.getElem?_take, if_pos hk, List.getElem?_drop]

theorem length_take_drop (l : List Nat) (offs cmp : Nat) (h : offs + cmp ≤ l.length) :
    ((l.drop offs).take cmp).length = cmp := by
  simp only [List.length_take, List.length_drop]
  omega

/-- Postcondition of one pass of the inner loop over a refilled buffer
pair, relating the entry state `st` (at buffer offset `offs`, buffers
refilled at stream position `p`) to the exit state `s`. -/
structure InnerPost (cfg : Config) (src dest0 sb db : List Nat) (p offs : Nat)
    (st s : EngineState) : Prop where
  ws : s.wsched = []
  pos : s.dest_pos = st.dest_pos
  len : s.dest.length = st.dest.length
  counters : ∀ F, min sb.length db.length - offs < F →
    s.block_cnt = st.block_cnt + (scanBufs cfg.block_size sb db offs F).blocks ∧
    s.diff_blocks = st.diff_blocks + (scanBufs cfg.block_size sb db offs F).diffBlocks ∧
    s.total_bytes = st.total_bytes + (scanBufs cfg.block_size sb db offs F).bytes ∧
    s.diff_bytes = st.diff_bytes + (scanBufs cfg.block_size sb db offs F).diffBytes
  aligned : cfg.block_size ∣ (min sb.length db.length - offs) →
    s.block_cnt * cfg.block_size =
      st.block_cnt * cfg.block_size + (min sb.length db.length - offs)
  dryDest : cfg.dry_run = true → s.dest = st.dest
  low : ∀ i, i < p + offs → s.dest[i]? = st.dest[i]?
  mid : cfg.dry_run = false → ∀ j, offs ≤ j → j < min sb.length db.length →
    s.dest[p + j]? = sb[j]?
  high : ∀ i, p + min sb.length db.length ≤ i → s.dest[i]? = st.dest[i]?
  oldBlocks : ∀ d, d ∈ st.blocks → d ∈ s.blocks
  newBlocks : ∀ d, d ∈ s.blocks → d ∈ st.blocks ∨
    (p + offs ≤ d.index * cfg.block_size ∧
     d.index * cfg.block_size + d.size ≤ p + min sb.length db.length ∧
     0 < d.size ∧ d.size ≤ cfg.block_size ∧
     d.srcBytes = (src.drop (d.index * cfg.block_size)).take d.size ∧
     d.destBytes = (dest0.drop (d.index * cfg.block_size)).take d.size)
  tiles : ∀ i, p + offs ≤ i → i < p + min sb.length db.length →
    covers cfg.block_size s.blocks i

/-- One comparison step extends an inner-loop postcondition from offset
`offs + cmp` back to offset `offs`: the state `st2` after processing the
block at `offs` (size `cmp`, difference deltas `ddb`, `dby`, destination
`destNew`) satisfies a postcondition from `offs + cmp`, and the combined
effect satisfies the postcondition from `offs`. -/
theorem innerPost_cons (cfg : Config) (src dest0 sb db : List Nat)
    (p offs cmp ddb dby : Nat) (st st2 s : EngineState) (destNew : List Nat)
    (hbs : 1 ≤ cfg.block_size)
    (hg1 : offs < sb.length) (hg2 : offs < db.length)
    (hcmpdef : cmp = min (min cfg.block_size (sb.length - offs))
      (min cfg.block_size (db.length - offs)))
    (hbc : st.block_cnt * cfg.block_size = p + offs)
    (hsrc_slice : (sb.drop offs).take cmp = (src.drop (p + offs)).take cmp)
    (hdest_slice : (db.drop offs).take cmp = (dest0.drop (p + offs)).take cmp)
    (hscanbranch :
      ((sb.drop offs).take cmp = (db.drop offs).take cmp ∧ ddb = 0 ∧ dby = 0) ∨
      (¬(sb.drop offs).take cmp = (db.drop offs).take cmp ∧ ddb = 1 ∧ dby = cmp))
    (hlen0 : destNew.length = st.dest.length)
    (hdry0 : cfg.dry_run = true → destNew = st.dest)
    (hlow0 : ∀ i, i < p + offs → destNew[i]? = st.dest[i]?)
    (hmid0 : cfg.dry_run = false → ∀ j, offs ≤ j → j < offs + cmp →
      destNew[p + j]? = sb[j]?)
    (hhigh0 : ∀ i, p + offs + cmp ≤ i → destNew[i]? = st.dest[i]?)
    (hf1 : st2.diff_blocks = st.diff_blocks + ddb)
    (hf2 : st2.diff_bytes = st.diff_bytes + dby)
    (hf3 : st2.total_bytes = st.total_bytes + cmp)
    (hf4 : st2.block_cnt = st.block_cnt + 1)
    (hf5 : st2.dest = destNew)
    (hf6 : st2.dest_pos = st.dest_pos)
    (hf7 : st2.blocks = st.blocks ++
      [BlockDescriptor.mk st.block_cnt cmp
        ((sb.drop offs).take cmp) ((db.drop offs).take cmp)])
    (post : InnerPost cfg src dest0 sb db p (offs + cmp) st2 s) :
    InnerPost cfg src dest0 sb db p offs st s := by
  have hcmp : 1 ≤ cmp := by omega
  have hcmpbs : cmp ≤ cfg.block_size := by omega
  have hcmpm : offs + cmp ≤ min sb.length db.length := by omega
  have hsslen : ((sb.drop offs).take cmp).length = cmp :=
    length_take_drop sb offs cmp (by omega)
  constructor
  · exact post.ws
  · rw [post.pos, hf6]
  · rw [post.len, hf5, hlen0]
  · intro F hF
    match F, hF with
    | F2 + 1, hF =>
      obtain ⟨k1, k2, k3, k4⟩ := post.counters F2 (by omega)
      rw [hf4] at k1
      rw [hf1] at k2
      rw [hf3] at k3
      rw [hf2] at k4
      simp only [scanBufs, if_pos (And.intro hg1 hg2)]
      rw [← hcmpdef]
      rcases hscanbranch with ⟨hq, hd1, hd2⟩ | ⟨hq, hd1, hd2⟩
      · rw [if_pos hq]
        refine ⟨?_, ?_, ?_, ?_⟩ <;> dsimp only <;> omega
      · rw [if_neg hq]
        refine ⟨?_, ?_, ?_, ?_⟩ <;> dsimp only <;> omega
  · intro hdvd
    have hle : cfg.block_size ≤ min sb.length db.length - offs :=
      Nat.le_of_dvd (by omega) hdvd
    have hcmpbs2 : cmp = cfg.block_size := by omega
    obtain ⟨k, hk⟩ := hdvd
    have hk1 : 1 ≤ k := by
      rcases Nat.eq_zero_or_pos k with h0 | h1
      · subst h0; omega
      · exact h1
    have hdvd2 : cfg.block_size ∣ (min sb.length db.length - (offs + cmp)) := by
      refine ⟨k - 1, ?_⟩
      have hkk : cfg.block_size * k = cfg.block_size * (k - 1) + cfg.block_size := by
        cases k with
        | zero => omega
        | succ k2 => rw [Nat.succ_sub_one, Nat.mul_succ]
      omega
    have ha := post.aligned hdvd2
    rw [hf4, Nat.add_mul, one_mul, hbc] at ha
    rw [hbc]
    omega
  · intro hdry
    rw [post.dryDest hdry, hf5, hdry0 hdry]
  · intro i hi
    rw [post.low i (by omega), hf5]
    exact hlow0 i hi
  · intro hdryf j hj1 hj2
    by_cases hj : offs + cmp ≤ j
    · exact post.mid hdryf j hj hj2
    · rw [post.low (p + j) (by omega), hf5]
      exact hmid0 hdryf j hj1 (by omega)
  · intro i hi
    rw [post.high i hi, hf5]
    exact hhigh0 i (by omega)
  · intro d hd
    exact post.oldBlocks d (by rw [hf7]; simp [hd])
  · intro d hd
    rcases post.newBlocks d hd with hmem | hp
    · rw [hf7] at hmem
      simp only [List.mem_append, List.mem_singleton] at hmem
      rcases hmem with hmem | hmem
      · exact Or.inl hmem
      · subst hmem
        refine Or.inr ⟨?_, ?_, hcmp, hcmpbs, ?_, ?_⟩
        · dsimp only
          omega
        · dsimp only
          omega
        · dsimp only
          rw [hbc]
          exact hsrc_slice
        · dsimp only
          rw [hbc]
          exact hdest_slice
    · exact Or.inr ⟨by omega, hp.2.1, hp.2.2.1, hp.2.2.2.1, hp.2.2.2.2.1, hp.2.2.2.2.2⟩
  · intro i hi1 hi2
    by_cases hj : i < p + (offs + cmp)
    · refine ⟨BlockDescriptor.mk st.block_cnt cmp
        ((sb.drop offs).take cmp) ((db.drop offs).take cmp),
        post.oldBlocks _ (by rw [hf7]; simp), ?_, ?_⟩
      · dsimp only
        omega
      · dsimp only
        omega
    · exact post.tiles i (by omega) hi2

/-- Master lemma for one pass of the inner loop: starting from offset
`offs` into buffers refilled at stream position `p`, with an aligned
block counter and no injected write failures, the loop finishes normally
and `InnerPost` relates entry and exit states: the counter deltas are the
pure `scanBufs` deltas, the destination keeps its length and cursor, the
bytes below `p + offs` and from `p + m` on are untouched (`m` the
compared span), in sync mode the bytes at `[p+offs, p+m)` become the
source bytes, every newly logged block sits inside `[p+offs, p+m)` at its
nominal offset with the true stream slices, and the logged blocks tile
the span. -/
theorem innerLoop_master (cfg : Config) (src dest0 : List Nat) (p : Nat)
    (hbs : 1 ≤ cfg.block_size) (sb db : List Nat)
    (hsb : sb = fill_buf_bytes src p cfg.buf_size)
    (hdb : db = fill_buf_bytes dest0 p cfg.buf_size) :
    ∀ fuel offs st,
      min sb.length db.length - offs < fuel →
      offs ≤ min sb.length db.length →
      st.wsched = [] →
      (offs < min sb.length db.length →
        st.block_cnt * cfg.block_size = p + offs) →
      p + db.length ≤ st.dest.length →
      (∀ j, offs ≤ j → j < db.length → db[j]? = st.dest[p + j]?) →
      ∃ s, innerLoop cfg sb db offs st fuel = some (Except.ok s) ∧
        InnerPost cfg src dest0 sb db p offs st s := by
  intro fuel
  induction fuel with
  | zero => intro offs st h1; omega
  | succ n ih =>
    intro offs st h1 hom hws hoff hlen hcur
    simp only [innerLoop]
    by_cases hguard : offs < sb.length ∧ offs < db.length
    · rw [if_pos hguard]
      obtain ⟨hg1, hg2⟩ := hguard
      have hoffm : offs < min sb.length db.length := by omega
      set cmp := min (min cfg.block_size (sb.length - offs))
        (min cfg.block_size (db.length - offs)) with hcmpdef
      have hcmp : 1 ≤ cmp := by omega
      have hcmpm : offs + cmp ≤ min sb.length db.length := by omega
      have hbc : st.block_cnt * cfg.block_size = p + offs := hoff hoffm
      have hnext : offs + cmp < min sb.length db.length → cmp = cfg.block_size := by omega
      have hsslen : ((sb.drop offs).take cmp).length = cmp :=
        length_take_drop sb offs cmp (by omega)
      have hsrc_slice : (sb.drop offs).take cmp = (src.drop (p + offs)).take cmp := by
        rw [hsb]
        apply slice_fill_buf_bytes
        have hsbl : sb.length ≤ cfg.buf_size := by
          rw [hsb, length_fill_buf_bytes]; omega
        omega
      have hdest_slice : (db.drop offs).take cmp = (dest0.drop (p + offs)).take cmp := by
        rw [hdb]
        apply slice_fill_buf_bytes
        have hdbl : db.length ≤ cfg.buf_size := by
          rw [hdb, length_fill_buf_bytes]; omega
        omega
      set d0 : BlockDescriptor :=
        ⟨st.block_cnt, cmp, (sb.drop offs).take cmp, (db.drop offs).take cmp⟩ with hd0
      by_cases heq : (sb.drop offs).take cmp = (db.drop offs).take cmp
      · rw [if_pos heq]
        obtain ⟨s, hs, post⟩ :=
          ih (offs + cmp)
            { st with total_bytes := st.total_bytes + cmp,
                      block_cnt := st.block_cnt + 1,
                      blocks := st.blocks ++ [d0] }
            (by omega) (by omega) hws
            (by
              intro hlt
              dsimp only
              rw [Nat.add_mul, one_mul, hbc, hnext hlt]
              omega)
            (by dsimp only; omega)
            (by
              intro j hj1 hj2
              dsimp only
              exact hcur j (by omega) hj2)
        refine ⟨s, hs, ?_⟩
        refine innerPost_cons cfg src dest0 sb db p offs cmp 0 0 st
          { st with total_bytes := st.total_bytes + cmp,
                    block_cnt := st.block_cnt + 1,
                    blocks := st.blocks ++ [d0] } s st.dest
          hbs hg1 hg2 hcmpdef hbc hsrc_slice hdest_slice (Or.inl ⟨heq, rfl, rfl⟩)
          rfl (fun _ => rfl) (fun i _ => rfl) ?_ (fun i _ => rfl)
          rfl rfl rfl rfl rfl rfl rfl post
        intro hdryf j hj1 hj2
        rw [← hcur j hj1 (by omega)]
        have hagree := agree_of_take_drop_eq sb db offs cmp (j - offs) heq (by omega)
        rw [show offs + (j - offs) = j from by omega] at hagree
        exact hagree.symm
      · rw [if_neg heq]
        by_cases hdry : cfg.dry_run = true
        · rw [if_pos hdry]
          obtain ⟨s, hs, post⟩ :=
            ih (offs + cmp)
              { st with diff_blocks := st.diff_blocks + 1,
                        diff_bytes := st.diff_bytes + cmp,
                        total_bytes := st.total_bytes + cmp,
                        block_cnt := st.block_cnt + 1,
                        blocks := st.blocks ++ [d0] }
              (by omega) (by omega) hws
              (by
                intro hlt
                dsimp only
                rw [Nat.add_mul, one_mul, hbc, hnext hlt]
                omega)
              (by dsimp only; omega)
              (by
                intro j hj1 hj2
                dsimp only
                exact hcur j (by omega) hj2)
          refine ⟨s, hs, ?_⟩
          refine innerPost_cons cfg src dest0 sb db p offs cmp 1 cmp st
            { st with diff_blocks := st.diff_blocks + 1,
                      diff_bytes := st.diff_bytes + cmp,
                      total_bytes := st.total_bytes + cmp,
                      block_cnt := st.block_cnt + 1,
                      blocks := st.blocks ++ [d0] } s st.dest
            hbs hg1 hg2 hcmpdef hbc hsrc_slice hdest_slice (Or.inr ⟨heq, rfl, rfl⟩)
            rfl (fun _ => rfl) (fun i _ => rfl) ?_ (fun i _ => rfl)
            rfl rfl rfl rfl rfl rfl rfl post
          intro hdryf
          rw [hdryf] at hdry
          exact absurd hdry (by decide)
        · rw [if_neg hdry]
          have hdryf : cfg.dry_run = false := by
            cases hcfg : cfg.dry_run
            · rfl
            · exact absurd hcfg hdry
          have hwc : (match st.wsched with | [] => cmp | w :: _ => min w cmp) = cmp := by
            rw [hws]
          rw [hwc, if_pos rfl]
          have hpatch : patchBlock st.dest st.dest_pos (st.block_cnt * cfg.block_size)
              ((sb.drop offs).take cmp) cmp =
              (writeAt st.dest (p + offs) ((sb.drop offs).take cmp), st.dest_pos) := by
            rw [patchBlock, if_pos hsslen.symm, hbc,
              List.take_of_length_le (le_of_eq hsslen)]
          have hwlen : (writeAt st.dest (p + offs) ((sb.drop offs).take cmp)).length =
              st.dest.length := by
            rw [writeAt_length, hsslen]
            omega
          obtain ⟨s, hs, post⟩ :=
            ih (offs + cmp)
              { st with diff_blocks := st.diff_blocks + 1,
                        diff_bytes := st.diff_bytes + cmp,
                        total_bytes := st.total_bytes + cmp,
                        block_cnt := st.block_cnt + 1,
                        dest := (patchBlock st.dest st.dest_pos
                          (st.block_cnt * cfg.block_size) ((sb.drop offs).take cmp) cmp).1,
                        dest_pos := (patchBlock st.dest st.dest_pos
                          (st.block_cnt * cfg.block_size) ((sb.drop offs).take cmp) cmp).2,
                        wsched := st.wsched.tail,
                        blocks := st.blocks ++ [d0] }
              (by omega) (by omega) (by dsimp only; rw [hws]; rfl)
              (by
                intro hlt
                dsimp only
                rw [Nat.add_mul, one_mul, hbc, hnext hlt]
                omega)
              (by
                dsimp only
                rw [hpatch]
                dsimp only
                rw [hwlen]
                omega)
              (by
                intro j hj1 hj2
                dsimp only
                rw [hpatch]
                dsimp only
                rw [getElem?_writeAt_ge st.dest (p + offs) _ (p + j)
                  (by rw [hsslen]; omega)]
                exact hcur j (by omega) hj2)
          refine ⟨s, hs, ?_⟩
          refine innerPost_cons cfg src dest0 sb db p offs cmp 1 cmp st
            { st with diff_blocks := st.diff_blocks + 1,
                      diff_bytes := st.diff_bytes + cmp,
                      total_bytes := st.total_bytes + cmp,
                      block_cnt := st.block_cnt + 1,
                      dest := (patchBlock st.dest st.dest_pos
                        (st.block_cnt * cfg.block_size) ((sb.drop offs).take cmp) cmp).1,
                      dest_pos := (patchBlock st.dest st.dest_pos
                        (st.block_cnt * cfg.block_size) ((sb.drop offs).take cmp) cmp).2,
                      wsched := st.wsched.tail,
                      blocks := st.blocks ++ [d0] } s
            (writeAt st.dest (p + offs) ((sb.drop offs).take cmp))
            hbs hg1 hg2 hcmpdef hbc hsrc_slice hdest_slice (Or.inr ⟨heq, rfl, rfl⟩)
            hwlen ?_ ?_ ?_ ?_
            rfl rfl rfl rfl (by dsimp only; rw [hpatch]) (by dsimp only; rw [hpatch])
            rfl post
          · intro hdry2
            rw [hdry2] at hdryf
            exact absurd hdryf (by decide)
          · intro i hi
            exact getElem?_writeAt_lt st.dest (p + offs) _ i hi (by omega)
          · intro hdry2 j hj1 hj2
            rw [show p + j = p + offs + (j - offs) from by omega]
            rw [getElem?_writeAt_in st.dest (p + offs) _ (j - offs)
              (by rw [hsslen]; omega)]
            rw [getElem?_take_drop sb offs cmp (j - offs) (by omega)]
            rw [show offs + (j - offs) = j from by omega]
          · intro i hi
            exact getElem?_writeAt_ge st.dest (p + offs) _ i (by rw [hsslen]; omega)
    · rw [if_neg hguard]
      have hoffeq : offs = min sb.length db.length := by omega
      refine ⟨st, rfl, ?_⟩
      constructor
      · exact hws
      · rfl
      · rfl
      · intro F hF
        match F, hF with
        | F2 + 1, _ =>
          simp only [scanBufs, if_neg hguard]
          exact ⟨rfl, rfl, rfl, rfl⟩
      · intro hdvd
        omega
      · intro hdry
        rfl
      · intro i hi
        rfl
      · intro hdryf j hj1 hj2
        omega
      · intro i hi
        rfl
      · intro d hd
        exact hd
      · intro d hd
        exact Or.inl hd
      · intro i hi1 hi2
        omega

theorem agree_of_drop_eq (l1 l2 : List Nat) (n k : Nat) (h : l1.drop n = l2.drop n) :
    l1[n + k]? = l2[n + k]? := by
  rw [← List.getElem?_drop, h, List.getElem?_drop]

theorem drop_eq_of_agree (l1 l2 : List Nat) (n : Nat)
    (h : ∀ k, l1[n + k]? = l2[n + k]?) : l1.drop n = l2.drop n := by
  apply List.ext_getElem?
  intro k
  rw [List.getElem?_drop, List.getElem?_drop]
  exact h k

theorem take_eq_of_agree (l1 l2 : List Nat) (n : Nat)
    (h : ∀ i, i < n → l1[i]? = l2[i]?) : l1.take n = l2.take n := by
  apply List.ext_getElem?
  intro i
  rw [List.getElem?_take, List.getElem?_take]
  by_cases hi : i < n
  · rw [if_pos hi, if_pos hi]
    exact h i hi
  · rw [if_neg hi, if_neg hi]

theorem agree_of_take_eq (l1 l2 : List Nat) (n i : Nat)
    (h : l1.take n = l2.take n) (hi : i < n) : l1[i]? = l2[i]? := by
  have h2 := congrArg (fun l => l[i]?) h
  simpa [List.getElem?_take, hi] using h2

/-- The bytes counted by one `scanBufs` pass are exactly the compared
span of the buffer pair. -/
theorem scanBufs_bytes (bs : Nat) (sb db : List Nat) (hbs : 1 ≤ bs) :
    ∀ F offs, min sb.length db.length - offs < F →
      (scanBufs bs sb db offs F).bytes = min sb.length db.length - offs := by
  intro F
  induction F with
  | zero => intro offs h; omega
  | succ n ih =>
    intro offs h
    simp only [scanBufs]
    by_cases hguard : offs < sb.length ∧ offs < db.length
    · rw [if_pos hguard]
      obtain ⟨hg1, hg2⟩ := hguard
      set cmp := min (min bs (sb.length - offs)) (min bs (db.length - offs)) with hcmpdef
      have hcmp : 1 ≤ cmp := by omega
      have hrest := ih (offs + cmp) (by omega)
      by_cases heq : (sb.drop offs).take cmp = (db.drop offs).take cmp
      · rw [if_pos heq]
        dsimp only
        omega
      · rw [if_neg heq]
        dsimp only
        omega
    · rw [if_neg hguard]
      dsimp only
      omega

/-- Postcondition of a finished outer loop started at stream position
`p` in state `st` with original destination content `dest0`, relating to
the final state `s`. -/
structure OuterPost (cfg : Config) (src dest0 : List Nat) (p : Nat)
    (st s : EngineState) : Prop where
  ws : s.wsched = []
  total : s.total_bytes = min src.length dest0.length
  len : s.dest.length = dest0.length
  dryDest : cfg.dry_run = true → s.dest = dest0
  syncDest : cfg.dry_run = false →
    s.dest.take (min src.length dest0.length) =
      src.take (min src.length dest0.length) ∧
    s.dest.drop (min src.length dest0.length) =
      dest0.drop (min src.length dest0.length)
  counters : ∀ F, src.length - p < F →
    s.block_cnt = st.block_cnt +
      (scanStreams cfg.block_size cfg.buf_size src dest0 p F).blocks ∧
    s.diff_blocks = st.diff_blocks +
      (scanStreams cfg.block_size cfg.buf_size src dest0 p F).diffBlocks ∧
    s.total_bytes = st.total_bytes +
      (scanStreams cfg.block_size cfg.buf_size src dest0 p F).bytes ∧
    s.diff_bytes = st.diff_bytes +
      (scanStreams cfg.block_size cfg.buf_size src dest0 p F).diffBytes
  blocksOk : ∀ d, d ∈ s.blocks →
    d.index * cfg.block_size + d.size ≤ min src.length dest0.length ∧
    0 < d.size ∧ d.size ≤ cfg.block_size ∧
    d.srcBytes = (src.drop (d.index * cfg.block_size)).take d.size ∧
    d.destBytes = (dest0.drop (d.index * cfg.block_size)).take d.size
  tiles : ∀ i, i < min src.length dest0.length → covers cfg.block_size s.blocks i

/-- A run segment whose first refill comes up empty contributes nothing
to the pure counters. -/
theorem scanStreams_nil (bs B : Nat) (src dest : List Nat) (p : Nat)
    (h : (fill_buf_bytes src p B).length = 0 ∨ (fill_buf_bytes dest p B).length = 0) :
    ∀ F, scanStreams bs B src dest p F = ⟨0, 0, 0, 0⟩ := by
  intro F
  cases F with
  | zero => rfl
  | succ F2 =>
    simp only [scanStreams]
    rw [if_pos h]

/-- Unfolding of one iteration of the pure stream scan when both refills
are nonempty. -/
theorem scanStreams_cons (bs B : Nat) (src dest : List Nat) (p F : Nat)
    (h : ¬((fill_buf_bytes src p B).length = 0 ∨
      (fill_buf_bytes dest p B).length = 0)) :
    scanStreams bs B src dest p (F + 1) =
      ⟨(scanBufs bs (fill_buf_bytes src p B) (fill_buf_bytes dest p B) 0
          ((fill_buf_bytes src p B).length + 1)).blocks +
        (scanStreams bs B src dest (p + B) F).blocks,
       (scanBufs bs (fill_buf_bytes src p B) (fill_buf_bytes dest p B) 0
          ((fill_buf_bytes src p B).length + 1)).diffBlocks +
        (scanStreams bs B src dest (p + B) F).diffBlocks,
       (scanBufs bs (fill_buf_bytes src p B) (fill_buf_bytes dest p B) 0
          ((fill_buf_bytes src p B).length + 1)).bytes +
        (scanStreams bs B src dest (p + B) F).bytes,
       (scanBufs bs (fill_buf_bytes src p B) (fill_buf_bytes dest p B) 0
          ((fill_buf_bytes src p B).length + 1)).diffBytes +
        (scanStreams bs B src dest (p + B) F).diffBytes⟩ := by
  simp only [scanStreams]
  rw [if_neg h]

/-- Lift a finished outer-loop postcondition from position `p + buf_size`
back over one full-buffer iteration at position `p`. -/
theorem outerPost_shift (cfg : Config) (src dest0 : List Nat) (p : Nat)
    (st s1 s : EngineState) (sb db : List Nat)
    (hB : 1 ≤ cfg.buf_size)
    (hsbdef : sb = fill_buf_bytes src p cfg.buf_size)
    (hdbeq : db = fill_buf_bytes dest0 p cfg.buf_size)
    (hsb0 : sb.length ≠ 0) (hdb0 : db.length ≠ 0)
    (hp : p < src.length)
    (hc1 : s1.block_cnt = st.block_cnt +
      (scanBufs cfg.block_size sb db 0 (sb.length + 1)).blocks)
    (hc2 : s1.diff_blocks = st.diff_blocks +
      (scanBufs cfg.block_size sb db 0 (sb.length + 1)).diffBlocks)
    (hc3 : s1.total_bytes = st.total_bytes +
      (scanBufs cfg.block_size sb db 0 (sb.length + 1)).bytes)
    (hc4 : s1.diff_bytes = st.diff_bytes +
      (scanBufs cfg.block_size sb db 0 (sb.length + 1)).diffBytes)
    (o : OuterPost cfg src dest0 (p + cfg.buf_size) s1 s) :
    OuterPost cfg src dest0 p st s := by
  constructor
  · exact o.ws
  · exact o.total
  · exact o.len
  · exact o.dryDest
  · exact o.syncDest
  · intro F hF
    match F, hF with
    | F2 + 1, hF =>
      obtain ⟨k1, k2, k3, k4⟩ := o.counters F2 (by omega)
      rw [scanStreams_cons cfg.block_size cfg.buf_size src dest0 p F2
        (by rw [← hsbdef, ← hdbeq]; push_neg; exact ⟨hsb0, hdb0⟩)]
      rw [← hsbdef, ← hdbeq]
      refine ⟨?_, ?_, ?_, ?_⟩ <;> dsimp only <;> omega
  · exact o.blocksOk
  · exact o.tiles

/-- Build a finished outer-loop postcondition at position `p` when this
iteration compared the whole remaining overlap: one of the streams ends
within this buffer, so the following refill is empty and the loop stops
with the inner-loop postcondition`s effects as the final ones. -/
theorem outerPost_stop (cfg : Config) (src dest0 : List Nat) (p : Nat)
    (st st1 s1 sfin : EngineState) (sb db : List Nat)
    (hbs : 1 ≤ cfg.block_size) (hB : 1 ≤ cfg.buf_size)
    (hsbdef : sb = fill_buf_bytes src p cfg.buf_size)
    (hdbeq : db = fill_buf_bytes dest0 p cfg.buf_size)
    (hsb0 : sb.length ≠ 0) (hdb0 : db.length ≠ 0)
    (hTeq : p + min sb.length db.length = min src.length dest0.length)
    (hend2 : src.length ≤ p + cfg.buf_size ∨ dest0.length ≤ p + cfg.buf_size)
    (htot : st.total_bytes = p)
    (hlen : st.dest.length = dest0.length)
    (hsuf : st.dest.drop p = dest0.drop p)
    (hdryst : cfg.dry_run = true → st.dest = dest0)
    (hsyncst : cfg.dry_run = false → st.dest.take p = src.take p)
    (hblocks : ∀ d, d ∈ st.blocks →
      d.index * cfg.block_size + d.size ≤ p ∧ 0 < d.size ∧
      d.size ≤ cfg.block_size ∧
      d.srcBytes = (src.drop (d.index * cfg.block_size)).take d.size ∧
      d.destBytes = (dest0.drop (d.index * cfg.block_size)).take d.size)
    (hcov : ∀ i, i < p → covers cfg.block_size st.blocks i)
    (hst1d : st1.dest = st.dest)
    (hst1b : st1.blocks = st.blocks)
    (hst1c1 : st1.block_cnt = st.block_cnt)
    (hst1c2 : st1.diff_blocks = st.diff_blocks)
    (hst1c3 : st1.total_bytes = st.total_bytes)
    (hst1c4 : st1.diff_bytes = st.diff_bytes)
    (post : InnerPost cfg src dest0 sb db p 0 st1 s1)
    (hfd : sfin.dest = s1.dest)
    (hfb : sfin.blocks = s1.blocks)
    (hfw : sfin.wsched = s1.wsched)
    (hfc1 : sfin.block_cnt = s1.block_cnt)
    (hfc2 : sfin.diff_blocks = s1.diff_blocks)
    (hfc3 : sfin.total_bytes = s1.total_bytes)
    (hfc4 : sfin.diff_bytes = s1.diff_bytes) :
    OuterPost cfg src dest0 p st sfin := by
  have hsbl : sb.length = min cfg.buf_size (src.length - p) := by
    rw [hsbdef, length_fill_buf_bytes]
  have hdbl : db.length = min cfg.buf_size (dest0.length - p) := by
    rw [hdbeq, length_fill_buf_bytes]
  obtain ⟨j1, j2, j3, j4⟩ := post.counters (sb.length + 1) (by omega)
  have hbytes : (scanBufs cfg.block_size sb db 0 (sb.length + 1)).bytes =
      min sb.length db.length :=
    (scanBufs_bytes cfg.block_size sb db hbs (sb.length + 1) 0 (by omega)).trans
      (by omega)
  constructor
  · rw [hfw]; exact post.ws
  · rw [hfc3, j3, hbytes, hst1c3, htot, hTeq]
  · rw [hfd, post.len, hst1d, hlen]
  · intro hdry
    rw [hfd, post.dryDest hdry, hst1d]
    exact hdryst hdry
  · intro hdryf
    constructor
    · rw [hfd, ← hTeq]
      apply take_eq_of_agree
      intro i hi
      by_cases hip : i < p
      · rw [post.low i (by omega), hst1d]
        exact agree_of_take_eq st.dest src p i (hsyncst hdryf) hip
      · have hmid := post.mid hdryf (i - p) (by omega) (by omega)
        rw [show p + (i - p) = i from by omega] at hmid
        rw [hmid, hsbdef, getElem?_fill_buf_bytes src p cfg.buf_size (i - p) (by omega)]
        rw [show p + (i - p) = i from by omega]
    · rw [hfd, ← hTeq]
      apply drop_eq_of_agree
      intro k
      rw [post.high (p + min sb.length db.length + k) (by omega), hst1d]
      have ha := agree_of_drop_eq st.dest dest0 p (min sb.length db.length + k) hsuf
      rwa [← Nat.add_assoc] at ha
  · intro F hF
    match F, hF with
    | F2 + 1, hF =>
      rw [scanStreams_cons cfg.block_size cfg.buf_size src dest0 p F2
        (by rw [← hsbdef, ← hdbeq]; push_neg; exact ⟨hsb0, hdb0⟩)]
      rw [← hsbdef, ← hdbeq]
      rw [scanStreams_nil cfg.block_size cfg.buf_size src dest0 (p + cfg.buf_size)
        (by
          rcases hend2 with hcase | hcase
          · left
            rw [length_fill_buf_bytes]
            omega
          · right
            rw [length_fill_buf_bytes]
            omega) F2]
      refine ⟨?_, ?_, ?_, ?_⟩ <;> dsimp only <;> omega
  · intro d hd
    rw [hfb] at hd
    rcases post.newBlocks d hd with hmem | hp
    · rw [hst1b] at hmem
      obtain ⟨q1, q2, q3, q4, q5⟩ := hblocks d hmem
      exact ⟨by omega, q2, q3, q4, q5⟩
    · exact ⟨by omega, hp.2.2.1, hp.2.2.2.1, hp.2.2.2.2.1, hp.2.2.2.2.2⟩
  · intro i hi
    rw [hfb]
    by_cases hip : i < p
    · obtain ⟨d, hdmem, hd1, hd2⟩ := hcov i hip
      refine ⟨d, post.oldBlocks d ?_, hd1, hd2⟩
      rw [hst1b]
      exact hdmem
    · exact post.tiles i (by omega) (by omega)

/-- Build a finished outer-loop postcondition when the very first refill
of an iteration is empty: the loop stops with the state unchanged apart
from the destination cursor. -/
theorem outerPost_empty (cfg : Config) (src dest0 : List Nat) (p : Nat)
    (st sfin : EngineState)
    (hTp : min src.length dest0.length = p)
    (hnil : (fill_buf_bytes src p cfg.buf_size).length = 0 ∨
      (fill_buf_bytes dest0 p cfg.buf_size).length = 0)
    (hws : st.wsched = [])
    (htot : st.total_bytes = p)
    (hlen : st.dest.length = dest0.length)
    (hsuf : st.dest.drop p = dest0.drop p)
    (hdryst : cfg.dry_run = true → st.dest = dest0)
    (hsyncst : cfg.dry_run = false → st.dest.take p = src.take p)
    (hblocks : ∀ d, d ∈ st.blocks →
      d.index * cfg.block_size + d.size ≤ p ∧ 0 < d.size ∧
      d.size ≤ cfg.block_size ∧
      d.srcBytes = (src.drop (d.index * cfg.block_size)).take d.size ∧
      d.destBytes = (dest0.drop (d.index * cfg.block_size)).take d.size)
    (hcov : ∀ i, i < p → covers cfg.block_size st.blocks i)
    (hfd : sfin.dest = st.dest)
    (hfb : sfin.blocks = st.blocks)
    (hfw : sfin.wsched = st.wsched)
    (hfc1 : sfin.block_cnt = st.block_cnt)
    (hfc2 : sfin.diff_blocks = st.diff_blocks)
    (hfc3 : sfin.total_bytes = st.total_bytes)
    (hfc4 : sfin.diff_bytes = st.diff_bytes) :
    OuterPost cfg src dest0 p st sfin := by
  constructor
  · rw [hfw]; exact hws
  · rw [hfc3, hTp]; exact htot
  · rw [hfd]; exact hlen
  · intro hdry
    rw [hfd]; exact hdryst hdry
  · intro hdryf
    rw [hfd, hTp]
    exact ⟨hsyncst hdryf, hsuf⟩
  · intro F hF
    rw [scanStreams_nil cfg.block_size cfg.buf_size src dest0 p hnil F]
    refine ⟨?_, ?_, ?_, ?_⟩ <;> dsimp only <;> omega
  · intro d hd
    rw [hfb] at hd
    obtain ⟨q1, q2, q3, q4, q5⟩ := hblocks d hd
    rw [hTp]
    exact ⟨q1, q2, q3, q4, q5⟩
  · intro i hi
    rw [hfb]
    rw [hTp] at hi
    exact hcov i hi

/-- One outer iteration whose refill pair contains an empty side stops
the loop at once, only having advanced the destination cursor by the
destination refill. -/
theorem syncLoop_stop (cfg : Config) (src : List Nat) (q p : Nat)
    (st : EngineState) (hpos : st.dest_pos = p)
    (h : (fill_buf_bytes src q cfg.buf_size).length = 0 ∨
      (fill_buf_bytes st.dest p cfg.buf_size).length = 0) (fuel : Nat) :
    syncLoop cfg src q st (fuel + 1) = some (Except.ok
      { st with dest_pos := p + (fill_buf_bytes st.dest p cfg.buf_size).length }) := by
  subst hpos
  simp only [syncLoop]
  rw [if_pos h]

/-- One outer iteration with two nonempty refills and a normally
finishing inner pass continues with the outer loop at the advanced
source position. -/
theorem syncLoop_step_ok (cfg : Config) (src : List Nat) (q p : Nat)
    (st s1 : EngineState) (fuel : Nat)
    (hpos : st.dest_pos = p)
    (hguard : ¬((fill_buf_bytes src q cfg.buf_size).length = 0 ∨
      (fill_buf_bytes st.dest p cfg.buf_size).length = 0))
    (hs1 : innerLoop cfg (fill_buf_bytes src q cfg.buf_size)
      (fill_buf_bytes st.dest p cfg.buf_size) 0
      { st with dest_pos := p + (fill_buf_bytes st.dest p cfg.buf_size).length }
      ((fill_buf_bytes src q cfg.buf_size).length + 1) = some (Except.ok s1)) :
    syncLoop cfg src q st (fuel + 1) =
      syncLoop cfg src (q + (fill_buf_bytes src q cfg.buf_size).length) s1 fuel := by
  subst hpos
  simp only [syncLoop]
  rw [if_neg hguard, hs1]

/-- One outer iteration whose inner pass aborts on a short write
propagates the abort as the result of the whole run. -/
theorem syncLoop_step_error (cfg : Config) (src : List Nat) (q p : Nat)
    (st e : EngineState) (fuel : Nat)
    (hpos : st.dest_pos = p)
    (hguard : ¬((fill_buf_bytes src q cfg.buf_size).length = 0 ∨
      (fill_buf_bytes st.dest p cfg.buf_size).length = 0))
    (herr : innerLoop cfg (fill_buf_bytes src q cfg.buf_size)
      (fill_buf_bytes st.dest p cfg.buf_size) 0
      { st with dest_pos := p + (fill_buf_bytes st.dest p cfg.buf_size).length }
      ((fill_buf_bytes src q cfg.buf_size).length + 1) = some (Except.error e)) :
    syncLoop cfg src q st (fuel + 1) = some (Except.error e) := by
  subst hpos
  simp only [syncLoop]
  rw [if_neg hguard, herr]

/-- Length facts of one refill, in case-split form: it never exceeds the
capacity, never reads past end of stream, and is short exactly when the
stream end was reached. -/
theorem fill_len_cases (data : List Nat) (p B : Nat) (hp : p ≤ data.length) :
    (fill_buf_bytes data p B).length ≤ B ∧
    p + (fill_buf_bytes data p B).length ≤ data.length ∧
    ((fill_buf_bytes data p B).length = B ∨
      p + (fill_buf_bytes data p B).length = data.length) := by
  rw [length_fill_buf_bytes]
  omega

set_option maxHeartbeats 1600000 in
/-- Master lemma for the outer loop in the aligned case
(`block_size ∣ buf_size`, both positive, no injected write failures):
from a steady-state entry at stream position `p`, the loop finishes
normally with the `OuterPost` relation: it compares exactly
`min src.length dest0.length` bytes, never grows or shrinks the
destination, leaves it untouched in dry-run mode, in sync mode rewrites
the compared region to the source bytes and nothing else, accumulates the
pure `scanStreams` counter deltas, and logs blocks that sit at their
nominal offsets with the true stream slices and tile the compared
region. -/
theorem syncLoop_master (cfg : Config) (src dest0 : List Nat)
    (hbs : 1 ≤ cfg.block_size) (hB : 1 ≤ cfg.buf_size)
    (hdvd : cfg.block_size ∣ cfg.buf_size) :
    ∀ fuel p st,
      src.length - p < fuel →
      st.wsched = [] →
      st.dest_pos = p →
      st.total_bytes = p →
      st.block_cnt * cfg.block_size = p →
      p ≤ src.length →
      p ≤ dest0.length →
      st.dest.length = dest0.length →
      st.dest.drop p = dest0.drop p →
      (cfg.dry_run = true → st.dest = dest0) →
      (cfg.dry_run = false → st.dest.take p = src.take p) →
      (∀ d, d ∈ st.blocks →
        d.index * cfg.block_size + d.size ≤ p ∧ 0 < d.size ∧
        d.size ≤ cfg.block_size ∧
        d.srcBytes = (src.drop (d.index * cfg.block_size)).take d.size ∧
        d.destBytes = (dest0.drop (d.index * cfg.block_size)).take d.size) →
      (∀ i, i < p → covers cfg.block_size st.blocks i) →
      ∃ s, syncLoop cfg src p st fuel = some (Except.ok s) ∧
        OuterPost cfg src dest0 p st s := by
  intro fuel
  induction fuel with
  | zero => intro p st h1; omega
  | succ n ih =>
    intro p st h1 hws hpos htot hbc hpLs hpLd hlen hsuf hdryst hsyncst hblocks hcov
    obtain ⟨hsb_le, hsb_bound, hsb_cases⟩ := fill_len_cases src p cfg.buf_size hpLs
    obtain ⟨hdb_le, hdb_bound, hdb_cases⟩ :=
      fill_len_cases st.dest p cfg.buf_size (by rw [hlen]; exact hpLd)
    rw [hlen] at hdb_bound hdb_cases
    have hdbeq : fill_buf_bytes st.dest p cfg.buf_size =
        fill_buf_bytes dest0 p cfg.buf_size := by
      unfold fill_buf_bytes
      rw [hsuf]
    by_cases hguard : (fill_buf_bytes src p cfg.buf_size).length = 0 ∨
        (fill_buf_bytes st.dest p cfg.buf_size).length = 0
    · rw [syncLoop_stop cfg src p p st hpos hguard n]
      have hTp : min src.length dest0.length = p := by
        rcases hguard with h | h
        · omega
        · omega
      refine ⟨_, rfl, ?_⟩
      exact outerPost_empty cfg src dest0 p st _ hTp
        (by
          rcases hguard with h | h
          · exact Or.inl h
          · rw [hdbeq] at h; exact Or.inr h)
        hws htot hlen hsuf hdryst hsyncst hblocks hcov
        rfl rfl rfl rfl rfl rfl rfl
    · have hsb0 : (fill_buf_bytes src p cfg.buf_size).length ≠ 0 := by
        intro h; exact hguard (Or.inl h)
      have hdb0 : (fill_buf_bytes st.dest p cfg.buf_size).length ≠ 0 := by
        intro h; exact hguard (Or.inr h)
      have hpLs2 : p < src.length := by omega
      have hpLd2 : p < dest0.length := by omega
      obtain ⟨s1, hs1, post⟩ := innerLoop_master cfg src dest0 p hbs
        (fill_buf_bytes src p cfg.buf_size) (fill_buf_bytes st.dest p cfg.buf_size)
        rfl hdbeq ((fill_buf_bytes src p cfg.buf_size).length + 1) 0
        { st with dest_pos := p + (fill_buf_bytes st.dest p cfg.buf_size).length }
        (by omega) (by omega) hws
        (fun _ => by dsimp only; omega)
        (by dsimp only; omega)
        (fun j hj1 hj2 => by
          dsimp only
          exact getElem?_fill_buf_bytes st.dest p cfg.buf_size j (by omega))
      rw [syncLoop_step_ok cfg src p p st s1 n hpos hguard hs1]
      obtain ⟨j1, j2, j3, j4⟩ :=
        post.counters ((fill_buf_bytes src p cfg.buf_size).length + 1) (by omega)
      dsimp only at j1 j2 j3 j4
      have ppos : s1.dest_pos = p + (fill_buf_bytes st.dest p cfg.buf_size).length := by
        have hpp := post.pos
        dsimp only at hpp
        omega
      have plen : s1.dest.length = dest0.length := by
        have hpl := post.len
        dsimp only at hpl
        rw [hpl, hlen]
      by_cases hfull : (fill_buf_bytes src p cfg.buf_size).length = cfg.buf_size ∧
          (fill_buf_bytes st.dest p cfg.buf_size).length = cfg.buf_size
      · obtain ⟨hfs, hfd⟩ := hfull
        have hmB : min (fill_buf_bytes src p cfg.buf_size).length
            (fill_buf_bytes st.dest p cfg.buf_size).length = cfg.buf_size := by
          omega
        have pbytes : (scanBufs cfg.block_size (fill_buf_bytes src p cfg.buf_size)
            (fill_buf_bytes st.dest p cfg.buf_size) 0
            ((fill_buf_bytes src p cfg.buf_size).length + 1)).bytes = cfg.buf_size := by
          rw [scanBufs_bytes cfg.block_size _ _ hbs _ 0 (by omega)]
          omega
        have pbc : s1.block_cnt * cfg.block_size = p + cfg.buf_size := by
          have ha := post.aligned (by rw [Nat.sub_zero, hmB]; exact hdvd)
          rw [Nat.sub_zero, hmB] at ha
          dsimp only at ha
          omega
        obtain ⟨s, hs, opost⟩ := ih (p + cfg.buf_size) s1
          (by omega) post.ws (by omega) (by omega) pbc
          (by omega) (by omega) plen
          (by
            apply drop_eq_of_agree
            intro k
            have hh := post.high (p + cfg.buf_size + k) (by omega)
            dsimp only at hh
            rw [hh]
            have ha := agree_of_drop_eq st.dest dest0 p (cfg.buf_size + k) hsuf
            rwa [← Nat.add_assoc] at ha)
          (fun h => by
            have hpd := post.dryDest h
            dsimp only at hpd
            rw [hpd]
            exact hdryst h)
          (fun h => by
            apply take_eq_of_agree
            intro i hi
            by_cases hip : i < p
            · have hl := post.low i (by omega)
              dsimp only at hl
              rw [hl]
              exact agree_of_take_eq st.dest src p i (hsyncst h) hip
            · have hmid := post.mid h (i - p) (by omega) (by omega)
              rw [show p + (i - p) = i from by omega] at hmid
              rw [hmid,
                getElem?_fill_buf_bytes src p cfg.buf_size (i - p) (by omega)]
              rw [show p + (i - p) = i from by omega])
          (fun d hd => by
            rcases post.newBlocks d hd with hmem | hp
            · obtain ⟨q1, q2, q3, q4, q5⟩ := hblocks d hmem
              exact ⟨by omega, q2, q3, q4, q5⟩
            · exact ⟨by omega, hp.2.2.1, hp.2.2.2.1, hp.2.2.2.2.1, hp.2.2.2.2.2⟩)
          (fun i hi => by
            by_cases hip : i < p
            · obtain ⟨d, hdmem, hd1, hd2⟩ := hcov i hip
              exact ⟨d, post.oldBlocks d hdmem, hd1, hd2⟩
            · exact post.tiles i (by omega) (by omega))
        rw [hfs]
        refine ⟨s, hs, ?_⟩
        exact outerPost_shift cfg src dest0 p st s1 s
          (fill_buf_bytes src p cfg.buf_size) (fill_buf_bytes st.dest p cfg.buf_size)
          hB rfl hdbeq hsb0 hdb0 hpLs2 (by omega) (by omega) (by omega) (by omega) opost
      · cases n with
        | zero => omega
        | succ n2 =>
          rw [syncLoop_stop cfg src (p + (fill_buf_bytes src p cfg.buf_size).length)
            (p + (fill_buf_bytes st.dest p cfg.buf_size).length) s1 ppos
            (by
              rcases not_and_or.mp hfull with hcase | hcase
              · left
                rw [length_fill_buf_bytes]
                omega
              · right
                rw [length_fill_buf_bytes, plen]
                omega) n2]
          refine ⟨_, rfl, ?_⟩
          exact outerPost_stop cfg src dest0 p st
            { st with dest_pos := p + (fill_buf_bytes st.dest p cfg.buf_size).length }
            s1 _ (fill_buf_bytes src p cfg.buf_size)
            (fill_buf_bytes st.dest p cfg.buf_size) hbs hB
            rfl hdbeq hsb0 hdb0
            (by
              rcases not_and_or.mp hfull with hcase | hcase <;>
                rcases hsb_cases with hc1 | hc1 <;>
                  rcases hdb_cases with hc2 | hc2 <;> omega)
            (by
              rcases not_and_or.mp hfull with hcase | hcase
              · left; omega
              · right; omega)
            htot hlen hsuf hdryst hsyncst
            hblocks hcov rfl rfl rfl rfl rfl rfl post
            rfl rfl rfl rfl rfl rfl rfl

/-- One outer iteration whose inner pass runs out of fuel propagates the
fuel exhaustion. -/
theorem syncLoop_step_none (cfg : Config) (src : List Nat) (q p : Nat)
    (st : EngineState) (fuel : Nat)
    (hpos : st.dest_pos = p)
    (hguard : ¬((fill_buf_bytes src q cfg.buf_size).length = 0 ∨
      (fill_buf_bytes st.dest p cfg.buf_size).length = 0))
    (hnone : innerLoop cfg (fill_buf_bytes src q cfg.buf_size)
      (fill_buf_bytes st.dest p cfg.buf_size) 0
      { st with dest_pos := p + (fill_buf_bytes st.dest p cfg.buf_size).length }
      ((fill_buf_bytes src q cfg.buf_size).length + 1) = none) :
    syncLoop cfg src q st (fuel + 1) = none := by
  subst hpos
  simp only [syncLoop]
  rw [if_neg hguard, hnone]

/-! Outer loop: termination, runs over synchronised streams, counter
monotonicity, and dry-run framing. -/

/-- With a positive block size and no injected write failures the outer
loop finishes normally within fuel exceeding the remaining source bytes:
every continued iteration consumes at least one source byte. -/
theorem syncLoop_ok (cfg : Config) (src : List Nat) (hbs : 1 ≤ cfg.block_size) :
    ∀ fuel p st, src.length - p < fuel → st.wsched = [] →
      ∃ s, syncLoop cfg src p st fuel = some (Except.ok s) ∧ s.wsched = [] := by
  intro fuel
  induction fuel with
  | zero => intro p st h1 h2; omega
  | succ n ih =>
    intro p st h1 h2
    by_cases hguard : (fill_buf_bytes src p cfg.buf_size).length = 0 ∨
        (fill_buf_bytes st.dest st.dest_pos cfg.buf_size).length = 0
    · rw [syncLoop_stop cfg src p st.dest_pos st rfl hguard n]
      exact ⟨_, rfl, h2⟩
    · obtain ⟨s1, hs1, hws1⟩ := innerLoop_ok cfg
        (fill_buf_bytes src p cfg.buf_size)
        (fill_buf_bytes st.dest st.dest_pos cfg.buf_size) hbs
        ((fill_buf_bytes src p cfg.buf_size).length + 1) 0
        { st with dest_pos :=
            st.dest_pos + (fill_buf_bytes st.dest st.dest_pos cfg.buf_size).length }
        (by omega) h2
      rw [syncLoop_step_ok cfg src p st.dest_pos st s1 n rfl hguard hs1]
      have h3 := length_fill_buf_bytes src p cfg.buf_size
      have h4 : (fill_buf_bytes src p cfg.buf_size).length ≠ 0 :=
        fun h => hguard (Or.inl h)
      exact ih (p + (fill_buf_bytes src p cfg.buf_size).length) s1 (by omega) hws1

/-- Running the engine over two streams that agree on their common prefix
of length `min src.length dest0.length` changes nothing: the destination
bytes, both difference counters and the write schedule come out exactly as
they went in. -/
theorem syncLoop_no_diff (cfg : Config) (src dest0 : List Nat)
    (hbs : 1 ≤ cfg.block_size)
    (hagree : ∀ i, i < min src.length dest0.length → src[i]? = dest0[i]?) :
    ∀ fuel p st, src.length - p < fuel →
      st.dest = dest0 → st.dest_pos = p → p ≤ src.length → p ≤ dest0.length →
      ∃ s, syncLoop cfg src p st fuel = some (Except.ok s) ∧
        s.dest = dest0 ∧ s.diff_blocks = st.diff_blocks ∧
        s.diff_bytes = st.diff_bytes ∧ s.wsched = st.wsched := by
  intro fuel
  induction fuel with
  | zero => intro p st h1 _ _ _ _; omega
  | succ n ih =>
    intro p st h1 hdest hpos hpLs hpLd
    obtain ⟨hsb_le, hsb_bound, hsb_cases⟩ := fill_len_cases src p cfg.buf_size hpLs
    obtain ⟨hdb_le, hdb_bound, hdb_cases⟩ := fill_len_cases dest0 p cfg.buf_size hpLd
    have hdd : fill_buf_bytes st.dest p cfg.buf_size =
        fill_buf_bytes dest0 p cfg.buf_size := by
      unfold fill_buf_bytes
      rw [hdest]
    have hef : (fill_buf_bytes st.dest p cfg.buf_size).length =
        (fill_buf_bytes dest0 p cfg.buf_size).length := by rw [hdd]
    by_cases hguard : (fill_buf_bytes src p cfg.buf_size).length = 0 ∨
        (fill_buf_bytes st.dest p cfg.buf_size).length = 0
    · rw [syncLoop_stop cfg src p p st hpos hguard n]
      exact ⟨_, rfl, hdest, rfl, rfl, rfl⟩
    · have hne1 : (fill_buf_bytes src p cfg.buf_size).length ≠ 0 :=
        fun h => hguard (Or.inl h)
      have heq2 : ∀ j, j < (fill_buf_bytes src p cfg.buf_size).length →
          j < (fill_buf_bytes st.dest p cfg.buf_size).length →
          (fill_buf_bytes src p cfg.buf_size)[j]? =
          (fill_buf_bytes st.dest p cfg.buf_size)[j]? := by
        intro j hj1 hj2
        rw [hef] at hj2
        rw [getElem?_fill_buf_bytes src p cfg.buf_size j (by omega),
            getElem?_fill_buf_bytes st.dest p cfg.buf_size j (by omega), hdest]
        exact hagree (p + j) (by omega)
      obtain ⟨s1, hs1, hc1, hc2, hc3, hc4, hc5⟩ := innerLoop_no_diff cfg
        (fill_buf_bytes src p cfg.buf_size)
        (fill_buf_bytes st.dest p cfg.buf_size) hbs heq2
        ((fill_buf_bytes src p cfg.buf_size).length + 1) 0
        { st with dest_pos := p + (fill_buf_bytes st.dest p cfg.buf_size).length }
        (by omega)
      dsimp only at hc1 hc2 hc3 hc4 hc5
      rw [syncLoop_step_ok cfg src p p st s1 n hpos hguard hs1]
      by_cases hLeq : (fill_buf_bytes src p cfg.buf_size).length =
          (fill_buf_bytes st.dest p cfg.buf_size).length
      · obtain ⟨s, hs, hd, hb1, hb2, hw⟩ :=
          ih (p + (fill_buf_bytes src p cfg.buf_size).length) s1 (by omega)
            (hc1.trans hdest) (by rw [hc2, hLeq]) (by omega) (by omega)
        exact ⟨s, hs, hd, hb1.trans hc4, hb2.trans hc5, hw.trans hc3⟩
      · cases n with
        | zero => omega
        | succ n2 =>
          have hl1 := length_fill_buf_bytes src
            (p + (fill_buf_bytes src p cfg.buf_size).length) cfg.buf_size
          have hl2 : (fill_buf_bytes s1.dest s1.dest_pos cfg.buf_size).length =
              min cfg.buf_size (dest0.length -
                (p + (fill_buf_bytes st.dest p cfg.buf_size).length)) := by
            rw [length_fill_buf_bytes, hc1, hdest, hc2, hdd]
          have hstop : (fill_buf_bytes src
              (p + (fill_buf_bytes src p cfg.buf_size).length) cfg.buf_size).length = 0 ∨
              (fill_buf_bytes s1.dest s1.dest_pos cfg.buf_size).length = 0 := by
            rw [hl1, hl2]
            omega
          rw [syncLoop_stop cfg src
            (p + (fill_buf_bytes src p cfg.buf_size).length) s1.dest_pos s1 rfl hstop n2]
          exact ⟨_, rfl, hc1.trans hdest, hc4, hc5, hc3⟩

/-- Counter accounting of the outer loop on a normal finish: the four
counters never decrease, the difference counters grow by no more than the
totals, and every newly logged block has a positive size of at most
`block_size`. -/
theorem syncLoop_counters (cfg : Config) (src : List Nat) (hbs : 1 ≤ cfg.block_size) :
    ∀ fuel p st s, syncLoop cfg src p st fuel = some (Except.ok s) →
      st.diff_blocks ≤ s.diff_blocks ∧ st.diff_bytes ≤ s.diff_bytes ∧
      st.total_bytes ≤ s.total_bytes ∧ st.block_cnt ≤ s.block_cnt ∧
      s.diff_bytes + st.total_bytes ≤ st.diff_bytes + s.total_bytes ∧
      s.diff_blocks + st.block_cnt ≤ st.diff_blocks + s.block_cnt ∧
      (∀ d, d ∈ s.blocks → d ∈ st.blocks ∨
        (0 < d.size ∧ d.size ≤ cfg.block_size)) := by
  intro fuel
  induction fuel with
  | zero => intro p st s hr; exact absurd hr (by simp [syncLoop])
  | succ n ih =>
    intro p st s hr
    by_cases hguard : (fill_buf_bytes src p cfg.buf_size).length = 0 ∨
        (fill_buf_bytes st.dest st.dest_pos cfg.buf_size).length = 0
    · rw [syncLoop_stop cfg src p st.dest_pos st rfl hguard n] at hr
      injection hr with hr2
      injection hr2 with hr3
      subst hr3
      exact ⟨Nat.le_refl _, Nat.le_refl _, Nat.le_refl _, Nat.le_refl _,
        Nat.le_refl _, Nat.le_refl _, fun d hd => Or.inl hd⟩
    · rcases hI : innerLoop cfg (fill_buf_bytes src p cfg.buf_size)
          (fill_buf_bytes st.dest st.dest_pos cfg.buf_size) 0
          { st with dest_pos :=
              st.dest_pos + (fill_buf_bytes st.dest st.dest_pos cfg.buf_size).length }
          ((fill_buf_bytes src p cfg.buf_size).length + 1) with _ | ri
      · rw [syncLoop_step_none cfg src p st.dest_pos st n rfl hguard hI] at hr
        exact absurd hr (by simp)
      · cases ri with
        | error e =>
          rw [syncLoop_step_error cfg src p st.dest_pos st e n rfl hguard hI] at hr
          exact absurd hr (by simp)
        | ok s1 =>
          rw [syncLoop_step_ok cfg src p st.dest_pos st s1 n rfl hguard hI] at hr
          have h1 := innerLoop_counters cfg
            (fill_buf_bytes src p cfg.buf_size)
            (fill_buf_bytes st.dest st.dest_pos cfg.buf_size) hbs
            ((fill_buf_bytes src p cfg.buf_size).length + 1) 0
            { st with dest_pos :=
                st.dest_pos + (fill_buf_bytes st.dest st.dest_pos cfg.buf_size).length }
            (Except.ok s1) hI
          have h2 := ih (p + (fill_buf_bytes src p cfg.buf_size).length) s1 s hr
          obtain ⟨a1, a2, a3, a4, a5, a6⟩ := h1
          obtain ⟨c1, c2⟩ := a5 s1 rfl
          obtain ⟨b1, b2, b3, b4, b5, b6, b7⟩ := h2
          dsimp only [resState] at a1 a2 a3 a4 a6
          dsimp only at c1 c2
          refine ⟨by omega, by omega, by omega, by omega, by omega, by omega, ?_⟩
          intro d hd
          rcases b7 d hd with h | h
          · rcases a6 d h with h3 | h3
            · exact Or.inl h3
            · exact Or.inr h3
          · exact Or.inr h

/-- In dry-run mode one inner pass never touches the destination bytes,
the cursor, or the write schedule, whatever the outcome. -/
theorem innerLoop_dry_const (cfg : Config) (sb db : List Nat)
    (hdry : cfg.dry_run = true) :
    ∀ fuel offs st r, innerLoop cfg sb db offs st fuel = some r →
      (resState r).dest = st.dest ∧ (resState r).dest_pos = st.dest_pos ∧
      (resState r).wsched = st.wsched := by
  intro fuel
  induction fuel with
  | zero => intro offs st r hr; exact absurd hr (by simp [innerLoop])
  | succ n ih =>
    intro offs st r hr
    simp only [innerLoop] at hr
    by_cases hguard : offs < sb.length ∧ offs < db.length
    · rw [if_pos hguard] at hr
      set cmp := min (min cfg.block_size (sb.length - offs))
        (min cfg.block_size (db.length - offs)) with hcmpdef
      by_cases heq : (sb.drop offs).take cmp = (db.drop offs).take cmp
      · rw [if_pos heq] at hr
        have h3 := ih _ _ _ hr
        exact h3
      · rw [if_neg heq, if_pos hdry] at hr
        have h3 := ih _ _ _ hr
        exact h3
    · rw [if_neg hguard] at hr
      injection hr with h
      subst h
      exact ⟨rfl, rfl, rfl⟩

/-- In dry-run mode the whole run never changes the destination bytes,
whatever the outcome and whatever the write schedule. -/
theorem syncLoop_dry_const (cfg : Config) (src : List Nat)
    (hdry : cfg.dry_run = true) :
    ∀ fuel p st r, syncLoop cfg src p st fuel = some r →
      (resState r).dest = st.dest := by
  intro fuel
  induction fuel with
  | zero => intro p st r hr; exact absurd hr (by simp [syncLoop])
  | succ n ih =>
    intro p st r hr
    by_cases hguard : (fill_buf_bytes src p cfg.buf_size).length = 0 ∨
        (fill_buf_bytes st.dest st.dest_pos cfg.buf_size).length = 0
    · rw [syncLoop_stop cfg src p st.dest_pos st rfl hguard n] at hr
      injection hr with h
      subst h
      rfl
    · rcases hI : innerLoop cfg (fill_buf_bytes src p cfg.buf_size)
          (fill_buf_bytes st.dest st.dest_pos cfg.buf_size) 0
          { st with dest_pos :=
              st.dest_pos + (fill_buf_bytes st.dest st.dest_pos cfg.buf_size).length }
          ((fill_buf_bytes src p cfg.buf_size).length + 1) with _ | ri
      · rw [syncLoop_step_none cfg src p st.dest_pos st n rfl hguard hI] at hr
        exact absurd hr (by simp)
      · cases ri with
        | error e =>
          rw [syncLoop_step_error cfg src p st.dest_pos st e n rfl hguard hI] at hr
          injection hr with h
          subst h
          exact (innerLoop_dry_const cfg _ _ hdry _ _ _ _ hI).1
        | ok s1 =>
          rw [syncLoop_step_ok cfg src p st.dest_pos st s1 n rfl hguard hI] at hr
          have h2 := ih (p + (fill_buf_bytes src p cfg.buf_size).length) s1 r hr
          exact h2.trans (innerLoop_dry_const cfg _ _ hdry _ _ _ _ hI).1

/-- A short write is fatal and precise: when the next scheduled write
result `w` falls short of the differing block size `cmp`, the inner loop
returns the error state in which the difference counters are already
incremented, `total_bytes` and `block_cnt` are not, the destination holds
the partial write of `w` bytes at the nominal offset, the cursor is left
after the partial write (not restored), the failed result is consumed
from the schedule and the block is logged.  Bytes below the nominal
offset are untouched. -/
theorem innerLoop_short_write (cfg : Config) (sb db : List Nat) (offs : Nat)
    (st : EngineState) (w cmp : Nat) (ws : List Nat) (fuel : Nat)
    (hdry : cfg.dry_run = false)
    (hg1 : offs < sb.length) (hg2 : offs < db.length)
    (hcmp : cmp = min (min cfg.block_size (sb.length - offs))
      (min cfg.block_size (db.length - offs)))
    (hws : st.wsched = w :: ws)
    (hshort : w < cmp)
    (hne : (sb.drop offs).take cmp ≠ (db.drop offs).take cmp) :
    innerLoop cfg sb db offs st (fuel + 1) = some (Except.error
      { diff_blocks := st.diff_blocks + 1
        diff_bytes := st.diff_bytes + cmp
        total_bytes := st.total_bytes
        block_cnt := st.block_cnt
        dest := writeAt st.dest (st.block_cnt * cfg.block_size)
          (((sb.drop offs).take cmp).take w)
        dest_pos := st.block_cnt * cfg.block_size + w
        wsched := ws
        blocks := st.blocks ++ [BlockDescriptor.mk st.block_cnt cmp
          ((sb.drop offs).take cmp) ((db.drop offs).take cmp)] }) ∧
    (∀ i, i < st.block_cnt * cfg.block_size → i < st.dest.length →
      (writeAt st.dest (st.block_cnt * cfg.block_size)
        (((sb.drop offs).take cmp).take w))[i]? = st.dest[i]?) := by
  subst hcmp
  constructor
  · simp only [innerLoop]
    rw [if_pos ⟨hg1, hg2⟩, if_neg hne,
      if_neg (by rw [hdry]; decide : ¬(cfg.dry_run = true))]
    have hwc : (match st.wsched with
        | [] => min (min cfg.block_size (sb.length - offs))
            (min cfg.block_size (db.length - offs))
        | w2 :: _ => min w2 (min (min cfg.block_size (sb.length - offs))
            (min cfg.block_size (db.length - offs)))) = w := by
      rw [hws]
      exact Nat.min_eq_left (Nat.le_of_lt hshort)
    rw [hwc]
    simp only [patchBlock]
    rw [length_take_drop sb offs _ (by omega), if_neg (by omega),
      if_neg (by omega : ¬(w = min (min cfg.block_size (sb.length - offs))
        (min cfg.block_size (db.length - offs))))]
    rw [hws]
    rfl
  · intro i hi hid
    exact getElem?_writeAt_lt st.dest _ _ i hi hid

/-- Agreement on common prefixes restricts to agreement on any slice of
the prefix. -/
theorem slice_eq_of_take_eq (l1 l2 : List Nat) (T o c : Nat)
    (h : l1.take T = l2.take T) (hoc : o + c ≤ T) :
    (l1.drop o).take c = (l2.drop o).take c := by
  apply take_drop_eq_of_agree
  intro j hj1 hj2
  exact agree_of_take_eq l1 l2 T j h (by omega)

/-- Entry-point form of the master lemma: in the aligned fault-free case
`sync_files` finishes normally and its final state satisfies the outer
postcondition from the zeroed initial state. -/
theorem sync_files_master (cfg : Config) (src dest : List Nat)
    (hbs : 1 ≤ cfg.block_size) (hB : 1 ≤ cfg.buf_size)
    (hdvd : cfg.block_size ∣ cfg.buf_size) :
    ∃ s, sync_files cfg src dest [] = some (Except.ok s) ∧
      OuterPost cfg src dest 0 ⟨0, 0, 0, 0, dest, 0, [], []⟩ s := by
  exact syncLoop_master cfg src dest hbs hB hdvd (src.length + 1) 0
    ⟨0, 0, 0, 0, dest, 0, [], []⟩ (by omega) rfl rfl rfl (Nat.zero_mul _)
    (Nat.zero_le _) (Nat.zero_le _) rfl rfl (fun _ => rfl) (fun _ => rfl)
    (fun d hd => absurd hd (List.not_mem_nil d))
    (fun i hi => absurd hi (Nat.not_lt_zero i))

/-! Claim theorems. -/

/-- C1. Asymmetric end-of-file rule, settled for the aligned
configurations the CLI produces (block_size dividing buf_size, both
positive): the outer loop stops as soon as either refill returns 0 bytes,
the run never errors, the total bytes compared equal the length overlap
of the two streams, and no logged block reaches past the shorter stream.
Without the divisibility condition the write offset drifts and
total_bytes can exceed the overlap (see the counterexample). -/
theorem c1_asymmetric_eof (cfg : Config) (src dest : List Nat)
    (hbs : 1 ≤ cfg.block_size) (hB : 1 ≤ cfg.buf_size)
    (hdvd : cfg.block_size ∣ cfg.buf_size) :
    (∀ (q : Nat) (st : EngineState) (f : Nat),
      ((fill_buf_bytes src q cfg.buf_size).length = 0 ∨
        (fill_buf_bytes st.dest st.dest_pos cfg.buf_size).length = 0) →
      syncLoop cfg src q st (f + 1) = some (Except.ok
        { st with dest_pos :=
            st.dest_pos + (fill_buf_bytes st.dest st.dest_pos cfg.buf_size).length })) ∧
    ∃ s, sync_files cfg src dest [] = some (Except.ok s) ∧
      s.total_bytes = min src.length dest.length ∧
      (∀ d, d ∈ s.blocks →
        d.index * cfg.block_size + d.size ≤ min src.length dest.length) := by
  refine ⟨fun q st f h => syncLoop_stop cfg src q st.dest_pos st rfl h f, ?_⟩
  obtain ⟨s, hs, post⟩ := sync_files_master cfg src dest hbs hB hdvd
  exact ⟨s, hs, post.total, fun d hd => (post.blocksOk d hd).1⟩

theorem c1_asymmetric_eof_witness :
    ∃ s, sync_files ⟨1, 1, false⟩ [0] [0] [] = some (Except.ok s) ∧
      s.total_bytes = min ([0] : List Nat).length ([0] : List Nat).length ∧
      (∀ d, d ∈ s.blocks →
        d.index * 1 + d.size ≤ min ([0] : List Nat).length ([0] : List Nat).length) :=
  (c1_asymmetric_eof ⟨1, 1, false⟩ [0] [0] (by decide) (by decide) ⟨1, rfl⟩).2

theorem c1_total_bytes_cex :
    runIsOk ⟨4, 6, false⟩ (List.replicate 18 1) (List.replicate 12 0) [] = true ∧
    (runFinal ⟨4, 6, false⟩ (List.replicate 18 1)
      (List.replicate 12 0) []).total_bytes = 14 ∧
    min (List.replicate 18 1 : List Nat).length
      (List.replicate 12 0 : List Nat).length = 12 := by
  decide

/-- C2. Sync-mode frame property, settled for the aligned configurations
the CLI produces: a full patch write restores the read cursor to its
saved position, every differing logged block of the final state carries
the source bytes at its nominal offset in the final destination, bytes
outside the differing block ranges are unchanged, and the destination
length is unchanged.  Without the divisibility condition the writes land
at drifted offsets and can extend the file (see the counterexample). -/
theorem c2_sync_frame (cfg : Config) (src dest : List Nat)
    (hbs : 1 ≤ cfg.block_size) (hB : 1 ≤ cfg.buf_size)
    (hdvd : cfg.block_size ∣ cfg.buf_size) (hdry : cfg.dry_run = false) :
    (∀ (dl : List Nat) (c o : Nat) (b : List Nat),
      (patchBlock dl c o b b.length).2 = c) ∧
    ∃ s, sync_files cfg src dest [] = some (Except.ok s) ∧
      s.dest.length = dest.length ∧
      (∀ d, d ∈ s.blocks → d.srcBytes ≠ d.destBytes →
        (s.dest.drop (d.index * cfg.block_size)).take d.size =
          (src.drop (d.index * cfg.block_size)).take d.size) ∧
      (∀ i, i < dest.length →
        (∀ d, d ∈ s.blocks → d.srcBytes ≠ d.destBytes →
          ¬(d.index * cfg.block_size ≤ i ∧ i < d.index * cfg.block_size + d.size)) →
        s.dest[i]? = dest[i]?) := by
  refine ⟨fun dl c o b => by simp [patchBlock], ?_⟩
  obtain ⟨s, hs, post⟩ := sync_files_master cfg src dest hbs hB hdvd
  refine ⟨s, hs, post.len, ?_, ?_⟩
  · intro d hd hdne
    obtain ⟨hrange, hszpos, hszle, hsrc, hdst⟩ := post.blocksOk d hd
    exact slice_eq_of_take_eq s.dest src (min src.length dest.length)
      (d.index * cfg.block_size) d.size (post.syncDest hdry).1 hrange
  · intro i hi hout
    by_cases hiT : i < min src.length dest.length
    · obtain ⟨d, hd, h1, h2⟩ := post.tiles i hiT
      obtain ⟨hrange, hszpos, hszle, hsrc, hdst⟩ := post.blocksOk d hd
      by_cases hdne : d.srcBytes = d.destBytes
      · have hslice : (src.drop (d.index * cfg.block_size)).take d.size =
            (dest.drop (d.index * cfg.block_size)).take d.size := by
          rw [← hsrc, ← hdst, hdne]
        have hsd := agree_of_take_drop_eq src dest (d.index * cfg.block_size)
          d.size (i - d.index * cfg.block_size) hslice (by omega)
        rw [Nat.add_sub_cancel' h1] at hsd
        have hsdest := agree_of_take_eq s.dest src (min src.length dest.length)
          i (post.syncDest hdry).1 hiT
        rw [hsdest, hsd]
      · exact absurd ⟨h1, h2⟩ (hout d hd hdne)
    · have hge := agree_of_drop_eq s.dest dest (min src.length dest.length)
        (i - min src.length dest.length) (post.syncDest hdry).2
      rwa [Nat.add_sub_cancel' (by omega : min src.length dest.length ≤ i)] at hge

theorem c2_sync_frame_witness :
    ∃ s, sync_files ⟨2, 2, false⟩ [1, 1] [0, 0] [] = some (Except.ok s) ∧
      s.dest.length = ([0, 0] : List Nat).length ∧
      (∀ d, d ∈ s.blocks → d.srcBytes ≠ d.destBytes →
        (s.dest.drop (d.index * 2)).take d.size =
          (([1, 1] : List Nat).drop (d.index * 2)).take d.size) ∧
      (∀ i, i < ([0, 0] : List Nat).length →
        (∀ d, d ∈ s.blocks → d.srcBytes ≠ d.destBytes →
          ¬(d.index * 2 ≤ i ∧ i < d.index * 2 + d.size)) →
        s.dest[i]? = ([0, 0] : List Nat)[i]?) :=
  (c2_sync_frame ⟨2, 2, false⟩ [1, 1] [0, 0] (by decide) (by decide)
    ⟨1, rfl⟩ rfl).2

theorem c2_length_cex :
    runIsOk ⟨4, 6, false⟩ (List.replicate 18 1) (List.replicate 12 0) [] = true ∧
    (runFinal ⟨4, 6, false⟩ (List.replicate 18 1)
      (List.replicate 12 0) []).dest.length = 14 ∧
    (List.replicate 12 0 : List Nat).length = 12 := by
  decide

/-- C3. Contract of the buffer filler: for every stream, position,
capacity and read-granularity schedule, the retry loop returns exactly
`min cap (available)` bytes — the full capacity unless the stream runs
out first — never more than the capacity, and this equals the length of
the bytes buffered. -/
theorem c3_fill_buf_contract (data : List Nat) (pos cap : Nat) (sched : List Nat) :
    fill_buf data pos cap sched = min cap (data.length - pos) ∧
    fill_buf data pos cap sched ≤ cap ∧
    fill_buf data pos cap sched = (fill_buf_bytes data pos cap).length := by
  refine ⟨fill_buf_eq data pos cap sched, ?_, ?_⟩
  · rw [fill_buf_eq]
    omega
  · rw [fill_buf_eq, length_fill_buf_bytes]

/-- C4. Idempotence of sync mode, settled for the aligned configurations
the CLI produces: one run rewrites the compared region of the destination
to the source bytes, and an immediate second run on the result reports
zero differing blocks, zero differing bytes and changes nothing.
Without the divisibility condition even the compared region can come out
different from the source (see the counterexample). -/
theorem c4_sync_idempotent (cfg : Config) (src dest : List Nat)
    (hbs : 1 ≤ cfg.block_size) (hB : 1 ≤ cfg.buf_size)
    (hdvd : cfg.block_size ∣ cfg.buf_size) (hdry : cfg.dry_run = false) :
    ∃ s s2, sync_files cfg src dest [] = some (Except.ok s) ∧
      s.dest.take (min src.length dest.length) =
        src.take (min src.length dest.length) ∧
      sync_files cfg src s.dest [] = some (Except.ok s2) ∧
      s2.diff_blocks = 0 ∧ s2.diff_bytes = 0 ∧ s2.dest = s.dest := by
  obtain ⟨s, hs, post⟩ := sync_files_master cfg src dest hbs hB hdvd
  have htake := (post.syncDest hdry).1
  have hlen := post.len
  have hagree : ∀ i, i < min src.length s.dest.length → src[i]? = s.dest[i]? := by
    intro i hi
    rw [hlen] at hi
    exact (agree_of_take_eq s.dest src (min src.length dest.length) i htake hi).symm
  obtain ⟨s2, hs2, hd2, hb1, hb2, hw2⟩ := syncLoop_no_diff cfg src s.dest hbs hagree
    (src.length + 1) 0 ⟨0, 0, 0, 0, s.dest, 0, [], []⟩ (by omega) rfl rfl
    (Nat.zero_le _) (Nat.zero_le _)
  exact ⟨s, s2, hs, htake, hs2, hb1, hb2, hd2⟩

theorem c4_sync_idempotent_witness :
    ∃ s s2, sync_files ⟨2, 2, false⟩ [1, 1] [0, 0] [] = some (Except.ok s) ∧
      s.dest.take (min ([1, 1] : List Nat).length ([0, 0] : List Nat).length) =
        ([1, 1] : List Nat).take
          (min ([1, 1] : List Nat).length ([0, 0] : List Nat).length) ∧
      sync_files ⟨2, 2, false⟩ [1, 1] s.dest [] = some (Except.ok s2) ∧
      s2.diff_blocks = 0 ∧ s2.diff_bytes = 0 ∧ s2.dest = s.dest :=
  c4_sync_idempotent ⟨2, 2, false⟩ [1, 1] [0, 0] (by decide) (by decide)
    ⟨1, rfl⟩ rfl

theorem c4_not_idempotent_cex :
    runIsOk ⟨2, 3, false⟩ [0, 0, 0, 1, 0, 0] [0, 0, 0, 0, 0, 0] [] = true ∧
    (runFinal ⟨2, 3, false⟩ [0, 0, 0, 1, 0, 0]
      [0, 0, 0, 0, 0, 0] []).dest = [0, 0, 0, 0, 1, 0] ∧
    ¬((runFinal ⟨2, 3, false⟩ [0, 0, 0, 1, 0, 0]
        [0, 0, 0, 0, 0, 0] []).dest.take 6 = ([0, 0, 0, 1, 0, 0] : List Nat).take 6) := by
  decide

/-- C5. Dry run: never changing a destination byte holds unconditionally
(first conjunct, for every configuration, every schedule, any outcome).
The statistics of a dry run equal those of a sync run on the same inputs
for the aligned configurations the CLI produces; without the divisibility
condition the two runs even compare different byte counts (see the
counterexample). -/
theorem c5_dry_run_hyper (bs buf : Nat) (src dest : List Nat)
    (hbs : 1 ≤ bs) (hB : 1 ≤ buf) (hdvd : bs ∣ buf) :
    (∀ (cfg : Config) (src2 : List Nat) (fuel p : Nat) (st : EngineState)
      (r : Except EngineState EngineState), cfg.dry_run = true →
      syncLoop cfg src2 p st fuel = some r → (resState r).dest = st.dest) ∧
    ∃ sd sw, sync_files ⟨bs, buf, true⟩ src dest [] = some (Except.ok sd) ∧
      sync_files ⟨bs, buf, false⟩ src dest [] = some (Except.ok sw) ∧
      sd.dest = dest ∧
      sd.block_cnt = sw.block_cnt ∧ sd.diff_blocks = sw.diff_blocks ∧
      sd.total_bytes = sw.total_bytes ∧ sd.diff_bytes = sw.diff_bytes := by
  refine ⟨fun cfg src2 fuel p st r hd hr =>
    syncLoop_dry_const cfg src2 hd fuel p st r hr, ?_⟩
  obtain ⟨sd, hsd, postd⟩ := sync_files_master ⟨bs, buf, true⟩ src dest hbs hB hdvd
  obtain ⟨sw, hsw, postw⟩ := sync_files_master ⟨bs, buf, false⟩ src dest hbs hB hdvd
  obtain ⟨e1, e2, e3, e4⟩ := postd.counters (src.length + 1) (by omega)
  obtain ⟨f1, f2, f3, f4⟩ := postw.counters (src.length + 1) (by omega)
  dsimp only at e1 e2 e3 e4 f1 f2 f3 f4
  exact ⟨sd, sw, hsd, hsw, postd.dryDest rfl,
    by omega, by omega, by omega, by omega⟩

theorem c5_dry_run_hyper_witness :
    ∃ sd sw, sync_files ⟨2, 2, true⟩ [1, 1] [0, 0] [] = some (Except.ok sd) ∧
      sync_files ⟨2, 2, false⟩ [1, 1] [0, 0] [] = some (Except.ok sw) ∧
      sd.dest = [0, 0] ∧
      sd.block_cnt = sw.block_cnt ∧ sd.diff_blocks = sw.diff_blocks ∧
      sd.total_bytes = sw.total_bytes ∧ sd.diff_bytes = sw.diff_bytes :=
  (c5_dry_run_hyper 2 2 [1, 1] [0, 0] (by decide) (by decide) ⟨1, rfl⟩).2

theorem c5_dry_wet_stats_cex :
    runIsOk ⟨4, 6, true⟩ (List.replicate 18 1) (List.replicate 12 0) [] = true ∧
    runIsOk ⟨4, 6, false⟩ (List.replicate 18 1) (List.replicate 12 0) [] = true ∧
    (runFinal ⟨4, 6, true⟩ (List.replicate 18 1)
      (List.replicate 12 0) []).total_bytes = 12 ∧
    (runFinal ⟨4, 6, false⟩ (List.replicate 18 1)
      (List.replicate 12 0) []).total_bytes = 14 ∧
    ¬((runFinal ⟨4, 6, true⟩ (List.replicate 18 1)
        (List.replicate 12 0) []).total_bytes =
      (runFinal ⟨4, 6, false⟩ (List.replicate 18 1)
        (List.replicate 12 0) []).total_bytes) := by
  decide

/-- C6. Offset correctness of the block log, settled for the aligned
configurations the CLI produces: every logged block sits at absolute
offset `index * block_size`, has positive size of at most one block, and
its recorded source and destination slices are the true stream bytes at
that offset, so a differing block has genuinely differing bytes there;
the logged blocks tile the whole compared region.  Without the
divisibility condition the nominal offset drifts from the true position
of the compared bytes (see the counterexample). -/
theorem c6_offsets (cfg : Config) (src dest : List Nat)
    (hbs : 1 ≤ cfg.block_size) (hB : 1 ≤ cfg.buf_size)
    (hdvd : cfg.block_size ∣ cfg.buf_size) :
    ∃ s, sync_files cfg src dest [] = some (Except.ok s) ∧
      (∀ d, d ∈ s.blocks →
        byteOffset cfg.block_size d = d.index * cfg.block_size ∧
        0 < d.size ∧ d.size ≤ cfg.block_size ∧
        d.srcBytes = (src.drop (d.index * cfg.block_size)).take d.size ∧
        d.destBytes = (dest.drop (d.index * cfg.block_size)).take d.size ∧
        (d.srcBytes ≠ d.destBytes →
          (src.drop (byteOffset cfg.block_size d)).take d.size ≠
            (dest.drop (byteOffset cfg.block_size d)).take d.size)) ∧
      (∀ i, i < min src.length dest.length → covers cfg.block_size s.blocks i) := by
  obtain ⟨s, hs, post⟩ := sync_files_master cfg src dest hbs hB hdvd
  refine ⟨s, hs, ?_, post.tiles⟩
  intro d hd
  obtain ⟨hrange, hszpos, hszle, hsrc, hdst⟩ := post.blocksOk d hd
  exact ⟨rfl, hszpos, hszle, hsrc, hdst,
    fun hne hsl => hne ((hsrc.trans hsl).trans hdst.symm)⟩

theorem c6_offsets_witness :
    ∃ s, sync_files ⟨2, 2, false⟩ [1, 1] [0, 0] [] = some (Except.ok s) ∧
      (∀ d, d ∈ s.blocks →
        byteOffset 2 d = d.index * 2 ∧
        0 < d.size ∧ d.size ≤ 2 ∧
        d.srcBytes = (([1, 1] : List Nat).drop (d.index * 2)).take d.size ∧
        d.destBytes = (([0, 0] : List Nat).drop (d.index * 2)).take d.size ∧
        (d.srcBytes ≠ d.destBytes →
          (([1, 1] : List Nat).drop (byteOffset 2 d)).take d.size ≠
            (([0, 0] : List Nat).drop (byteOffset 2 d)).take d.size)) ∧
      (∀ i, i < min ([1, 1] : List Nat).length ([0, 0] : List Nat).length →
        covers 2 s.blocks i) :=
  c6_offsets ⟨2, 2, false⟩ [1, 1] [0, 0] (by decide) (by decide) ⟨1, rfl⟩

theorem c6_offset_cex :
    runIsOk ⟨2, 3, true⟩ [0, 0, 0, 1, 0, 0] [0, 0, 0, 0, 0, 0] [] = true ∧
    BlockDescriptor.mk 2 2 [1, 0] [0, 0] ∈
      (runFinal ⟨2, 3, true⟩ [0, 0, 0, 1, 0, 0] [0, 0, 0, 0, 0, 0] []).blocks ∧
    ¬(([1, 0] : List Nat) = [0, 0]) ∧
    (([0, 0, 0, 1, 0, 0] : List Nat).drop
        (byteOffset 2 (BlockDescriptor.mk 2 2 [1, 0] [0, 0]))).take 2 =
      (([0, 0, 0, 0, 0, 0] : List Nat).drop
        (byteOffset 2 (BlockDescriptor.mk 2 2 [1, 0] [0, 0]))).take 2 := by
  decide

/-- C7. Termination: with a positive block size the inner loop finishes
within fuel exceeding the buffered overlap (each step consumes at least
one buffered byte), and the whole fault-free run finishes normally within
the fuel of `sync_files` (each outer iteration consumes at least one
source byte). -/
theorem c7_terminates (cfg : Config) (src dest : List Nat)
    (hbs : 1 ≤ cfg.block_size) :
    (∀ (sb db : List Nat) (fuel offs : Nat) (st : EngineState),
      min sb.length db.length - offs < fuel → st.wsched = [] →
      ∃ s, innerLoop cfg sb db offs st fuel = some (Except.ok s)) ∧
    ∃ s, sync_files cfg src dest [] = some (Except.ok s) := by
  constructor
  · intro sb db fuel offs st h1 h2
    obtain ⟨s, hs, _⟩ := innerLoop_ok cfg sb db hbs fuel offs st h1 h2
    exact ⟨s, hs⟩
  · obtain ⟨s, hs, _⟩ := syncLoop_ok cfg src hbs (src.length + 1) 0
      ⟨0, 0, 0, 0, dest, 0, [], []⟩ (by omega) rfl
    exact ⟨s, hs⟩

theorem c7_terminates_witness :
    ∃ s, sync_files ⟨1, 1, false⟩ [0] [1] [] = some (Except.ok s) :=
  (c7_terminates ⟨1, 1, false⟩ [0] [1] (by decide)).2

/-- C8. A short write is fatal: when the scheduled write result `w` falls
short of the differing block size `cmp`, the inner loop aborts at once
with the error state in which the difference counters are already
incremented, `total_bytes` and `block_cnt` are not, the destination
holds the partial write at the nominal offset, the cursor is not
restored, and the block is logged; bytes before the nominal offset —
the blocks already written — stay as they were, and the outer loop
propagates the abort as the result of the whole run with no retry. -/
theorem c8_short_write_fatal (cfg : Config) (src sb db : List Nat) (offs : Nat)
    (st : EngineState) (w cmp : Nat) (ws : List Nat) (fuel : Nat)
    (hdry : cfg.dry_run = false)
    (hg1 : offs < sb.length) (hg2 : offs < db.length)
    (hcmp : cmp = min (min cfg.block_size (sb.length - offs))
      (min cfg.block_size (db.length - offs)))
    (hws : st.wsched = w :: ws)
    (hshort : w < cmp)
    (hne : (sb.drop offs).take cmp ≠ (db.drop offs).take cmp) :
    innerLoop cfg sb db offs st (fuel + 1) = some (Except.error
      { diff_blocks := st.diff_blocks + 1
        diff_bytes := st.diff_bytes + cmp
        total_bytes := st.total_bytes
        block_cnt := st.block_cnt
        dest := writeAt st.dest (st.block_cnt * cfg.block_size)
          (((sb.drop offs).take cmp).take w)
        dest_pos := st.block_cnt * cfg.block_size + w
        wsched := ws
        blocks := st.blocks ++ [BlockDescriptor.mk st.block_cnt cmp
          ((sb.drop offs).take cmp) ((db.drop offs).take cmp)] }) ∧
    (∀ i, i < st.block_cnt * cfg.block_size → i < st.dest.length →
      (writeAt st.dest (st.block_cnt * cfg.block_size)
        (((sb.drop offs).take cmp).take w))[i]? = st.dest[i]?) ∧
    (∀ (q p fuel2 : Nat) (st2 e : EngineState),
      st2.dest_pos = p →
      ¬((fill_buf_bytes src q cfg.buf_size).length = 0 ∨
        (fill_buf_bytes st2.dest p cfg.buf_size).length = 0) →
      innerLoop cfg (fill_buf_bytes src q cfg.buf_size)
        (fill_buf_bytes st2.dest p cfg.buf_size) 0
        { st2 with dest_pos := p + (fill_buf_bytes st2.dest p cfg.buf_size).length }
        ((fill_buf_bytes src q cfg.buf_size).length + 1) = some (Except.error e) →
      syncLoop cfg src q st2 (fuel2 + 1) = some (Except.error e)) := by
  obtain ⟨h1, h2⟩ := innerLoop_short_write cfg sb db offs st w cmp ws fuel
    hdry hg1 hg2 hcmp hws hshort hne
  exact ⟨h1, h2, fun q p fuel2 st2 e hpos hg herr =>
    syncLoop_step_error cfg src q p st2 e fuel2 hpos hg herr⟩

theorem c8_short_write_fatal_witness :
    innerLoop ⟨1, 1, false⟩ [1] [0] 0 ⟨0, 0, 0, 0, [0], 5, [0], []⟩ 1 =
      some (Except.error ⟨1, 1, 0, 0, writeAt [0] 0 [], 0, [],
        [BlockDescriptor.mk 0 1 [1] [0]]⟩) :=
  (c8_short_write_fatal ⟨1, 1, false⟩ [1] [1] [0] 0 ⟨0, 0, 0, 0, [0], 5, [0], []⟩
    0 1 [] 0 rfl (by decide) (by decide) (by decide) rfl (by decide) (by decide)).1

/-- C9. Counter invariants: over any normally finishing stretch of the
outer loop all four counters are monotonically non-decreasing, and the
final state of a fault-free run has `diff_bytes ≤ total_bytes`,
`diff_blocks ≤ block_cnt`, and every logged block of positive size at
most `block_size`. -/
theorem c9_counters (cfg : Config) (src dest : List Nat)
    (hbs : 1 ≤ cfg.block_size) :
    (∀ (fuel p : Nat) (st s : EngineState),
      syncLoop cfg src p st fuel = some (Except.ok s) →
      st.diff_blocks ≤ s.diff_blocks ∧ st.diff_bytes ≤ s.diff_bytes ∧
      st.total_bytes ≤ s.total_bytes ∧ st.block_cnt ≤ s.block_cnt) ∧
    (∀ s, sync_files cfg src dest [] = some (Except.ok s) →
      s.diff_bytes ≤ s.total_bytes ∧ s.diff_blocks ≤ s.block_cnt ∧
      (∀ d, d ∈ s.blocks → 0 < d.size ∧ d.size ≤ cfg.block_size)) := by
  constructor
  · intro fuel p st s hr
    obtain ⟨a1, a2, a3, a4, _, _, _⟩ := syncLoop_counters cfg src hbs fuel p st s hr
    exact ⟨a1, a2, a3, a4⟩
  · intro s hs
    obtain ⟨a1, a2, a3, a4, a5, a6, a7⟩ := syncLoop_counters cfg src hbs
      (src.length + 1) 0 ⟨0, 0, 0, 0, dest, 0, [], []⟩ s hs
    dsimp only at a5 a6
    refine ⟨by omega, by omega, ?_⟩
    intro d hd
    rcases a7 d hd with h | h
    · exact absurd h (List.not_mem_nil d)
    · exact h

theorem c9_counters_witness :
    (runFinal ⟨1, 1, false⟩ [0] [1] []).diff_bytes ≤
      (runFinal ⟨1, 1, false⟩ [0] [1] []).total_bytes ∧
    (runFinal ⟨1, 1, false⟩ [0] [1] []).diff_blocks ≤
      (runFinal ⟨1, 1, false⟩ [0] [1] []).block_cnt :=
  have h := (c9_counters ⟨1, 1, false⟩ [0] [1] (by decide)).2
    (runFinal ⟨1, 1, false⟩ [0] [1] []) rfl
  ⟨h.1, h.2.1⟩

/-- C10. Zero buffer size degrades to a no-op: `fill_buf` on a
zero-capacity buffer returns 0 for every stream and schedule, so the very
first refill triggers the end-of-file rule and `sync_files` returns
normally with all four counters 0, an empty block log, the write schedule
untouched and the destination unchanged. -/
theorem c10_zero_buffer (cfg : Config) (src dest ws : List Nat)
    (hB0 : cfg.buf_size = 0) :
    (∀ (data : List Nat) (pos : Nat) (sched : List Nat),
      fill_buf data pos cfg.buf_size sched = 0) ∧
    sync_files cfg src dest ws = some (Except.ok
      (⟨0, 0, 0, 0, dest, 0, ws, []⟩ : EngineState)) := by
  constructor
  · intro data pos sched
    rw [fill_buf_eq, hB0]
    omega
  · have hlen : (fill_buf_bytes dest 0 cfg.buf_size).length = 0 := by
      rw [length_fill_buf_bytes, hB0]
      omega
    have hs := syncLoop_stop cfg src 0 0
      (⟨0, 0, 0, 0, dest, 0, ws, []⟩ : EngineState) rfl (Or.inr hlen) src.length
    rw [hlen] at hs
    exact hs

theorem c10_zero_buffer_witness :
    (∀ (data : List Nat) (pos : Nat) (sched : List Nat),
      fill_buf data pos 0 sched = 0) ∧
    sync_files ⟨3, 0, true⟩ [1, 2] [5] [7] = some (Except.ok
      (⟨0, 0, 0, 0, [5], 0, [7], []⟩ : EngineState)) :=
  c10_zero_buffer ⟨3, 0, true⟩ [1, 2] [5] [7] rfl

end Devsync
